import Mathlib

/-!
Verification development for the getjs JavaScript URL collector.

The collector drives a browser over a target page, gathers JavaScript URLs
from several discovery sources into a deduplicating set, and a CLI layer
filters, merges and downloads the results.  This file gives a shallow
embedding of the relevant functions and proves or refutes the specified
properties about them.

URL model.  The source code uses the platform WHATWG URL parser
(Node's new URL).  We model the two URL shapes the normaliser can emit:
hierarchical URLs of the shape scheme://authority/path?query#fragment, and
opaque-path URLs of the shape scheme:opaque-path?query#fragment (data:,
mailto:, javascript:), on which the platform pathname setter is a no-op.
Simplifications, each irrelevant to the properties proved here, are noted
on the individual definitions: scheme and host case is preserved instead
of lowercased, percent-encoding and dot-segment resolution are not
modelled, the scheme charset is restricted to ASCII letters, special
schemes written without slashes (http:foo) and single-slash non-special
forms (foo:/p) are outside the model (parse failure), and base validity is
not checked when the resolved reference is itself absolute.
-/

namespace GetJs

/-- One hierarchical URL record: scheme, authority (host, possibly with
userinfo and port), path, optional query and optional fragment.  Fields are
kept as character lists so that parsing and serialisation can be reasoned
about by list induction. -/
structure UrlRec where
  scheme : List Char
  host : List Char
  path : List Char
  query : Option (List Char)
  frag : Option (List Char)
deriving DecidableEq

/-- ASCII letter test. -/
def isAlphaCh (c : Char) : Bool := (decide ('a' ≤ c) && decide (c ≤ 'z')) || (decide ('A' ≤ c) && decide (c ≤ 'Z'))

/-- ASCII digit test. -/
def isDigitCh (c : Char) : Bool := decide ('0' ≤ c) && decide (c ≤ '9')

/-- Lowercase hex digit test (subjects are lowercased before this is used). -/
def isHexCh (c : Char) : Bool := isDigitCh c || (decide ('a' ≤ c) && decide (c ≤ 'f'))

/-- Characters allowed inside the authority component: anything up to the
first path, query or fragment delimiter. -/
def isAuthChar (c : Char) : Bool := c != '/' && c != '?' && c != '#'

/-- Split the part of a URL after the authority into path, query and
fragment, mirroring WHATWG order: the fragment starts at the first hash
mark, the query at the first question mark before that. -/
def splitTail (rest : List Char) : List Char × Option (List Char) × Option (List Char) :=
  let beforeFrag := rest.takeWhile (fun c => c != '#')
  let fragTail := rest.dropWhile (fun c => c != '#')
  let fr : Option (List Char) :=
    match fragTail with
    | '#' :: f => some f
    | _ => none
  let path0 := beforeFrag.takeWhile (fun c => c != '?')
  let queryTail := beforeFrag.dropWhile (fun c => c != '?')
  let q : Option (List Char) :=
    match queryTail with
    | '?' :: qq => some qq
    | _ => none
  (path0, q, fr)

/-- Model of the platform URL parser (new URL with a single argument),
restricted to hierarchical scheme://authority URLs; opaque-path URLs are
handled by parseOpaqueUrl below.  Returns none where the platform parser
throws.  The classifier and the hostname extraction below are built on
this hierarchical parser alone: the platform would let them succeed on
opaque-path URLs too, but such URLs do not occur among discovered script
URLs.  An empty path serialises to a single slash, as in WHATWG. -/
def parseListUrl (s : List Char) : Option UrlRec :=
  let scheme := s.takeWhile (fun c => c != ':')
  match s.dropWhile (fun c => c != ':') with
  | ':' :: '/' :: '/' :: rest2 =>
    if !scheme.isEmpty && scheme.all isAlphaCh then
      let auth := rest2.takeWhile isAuthChar
      let rest3 := rest2.dropWhile isAuthChar
      if !auth.isEmpty && auth.all (fun c => c != ' ' && c != '\\') then
        let pqf := splitTail rest3
        some (UrlRec.mk scheme auth (if pqf.1.isEmpty then ['/'] else pqf.1) pqf.2.1 pqf.2.2)
      else none
    else none
  | _ => none

/-- Serialise an optional query (the serialisation of URL.search). -/
def qSer : Option (List Char) → List Char
  | none => []
  | some q => '?' :: q

/-- Serialise an optional fragment (the serialisation of URL.hash). -/
def fSer : Option (List Char) → List Char
  | none => []
  | some f => '#' :: f

/-- Serialise a URL record, the model of URL.href. -/
def hrefList (r : UrlRec) : List Char :=
  r.scheme ++ ':' :: '/' :: '/' :: (r.host ++ r.path ++ qSer r.query ++ fSer r.frag)

/-- Well-formedness of a scheme component: nonempty, ASCII letters. -/
def schemeOK (l : List Char) : Prop := l ≠ [] ∧ ∀ c ∈ l, isAlphaCh c = true

/-- Well-formedness of an authority component: nonempty, free of the
delimiters and of the characters the parser rejects. -/
def hostOK (l : List Char) : Prop := l ≠ [] ∧ ∀ c ∈ l, isAuthChar c = true ∧ c ≠ ' ' ∧ c ≠ '\\'

/-- Well-formedness of a path component: starts with a slash and contains
no query or fragment delimiter. -/
def pathOK (l : List Char) : Prop := (∃ t, l = '/' :: t) ∧ ∀ c ∈ l, c ≠ '?' ∧ c ≠ '#'

/-- Well-formedness of an optional query: no fragment delimiter inside. -/
def queryOK : Option (List Char) → Prop
  | none => True
  | some q => ∀ c ∈ q, c ≠ '#'

/-- Well-formedness of a URL record: exactly the records produced by the
parser, and exactly those on which serialise-then-parse is the identity. -/
def WF (r : UrlRec) : Prop := schemeOK r.scheme ∧ hostOK r.host ∧ pathOK r.path ∧ queryOK r.query

/-- An opaque-path URL, as produced by the platform parser for a
non-special scheme whose remainder does not begin with a slash (data:,
mailto:, javascript:): the path is a single opaque string, ended by the
query or fragment delimiter, and the pathname setter is a no-op on it. -/
structure OpaqueRec where
  scheme : List Char
  opath : List Char
  query : Option (List Char)
  frag : Option (List Char)
deriving DecidableEq

/-- The WHATWG special schemes, which never get an opaque path. -/
def specialSchemes : List (List Char) :=
  ["http".data, "https".data, "ws".data, "wss".data, "ftp".data, "file".data]

/-- Does a character list begin with a slash. -/
def startsWithSlash : List Char → Bool
  | c :: _ => c == '/'
  | [] => false

/-- Model of the platform URL parser on opaque-path URLs: a valid
non-special scheme followed by a colon and a remainder not beginning with
a slash.  Special schemes written without slashes (http:foo) and
single-slash non-special forms (foo:/p), which the platform parses by
other rules, are outside the model and return none. -/
def parseOpaqueUrl (s : List Char) : Option OpaqueRec :=
  let scheme := s.takeWhile (fun c => c != ':')
  match s.dropWhile (fun c => c != ':') with
  | ':' :: rest =>
    if !scheme.isEmpty && scheme.all isAlphaCh && !(specialSchemes.contains scheme) &&
        !(startsWithSlash rest) then
      some (OpaqueRec.mk scheme (splitTail rest).1 (splitTail rest).2.1 (splitTail rest).2.2)
    else none
  | _ => none

/-- Serialise an opaque-path URL record, the model of URL.href on opaque
paths. -/
def hrefOpaque (o : OpaqueRec) : List Char :=
  o.scheme ++ ':' :: (o.opath ++ qSer o.query ++ fSer o.frag)

/-- Well-formedness of an opaque-path record: exactly the records produced
by parseOpaqueUrl, and exactly those on which serialise-then-parse is the
identity. -/
def WFopq (o : OpaqueRec) : Prop :=
  schemeOK o.scheme ∧ specialSchemes.contains o.scheme = false ∧
  startsWithSlash o.opath = false ∧
  (∀ c ∈ o.opath, c ≠ '?' ∧ c ≠ '#') ∧ queryOK o.query

/-- Does a reference begin with a valid scheme and a colon.  The platform
parser treats every such reference as absolute, never as a relative path. -/
def hasSchemeColon (ref : List Char) : Bool :=
  let scheme := ref.takeWhile (fun c => c != ':')
  (!scheme.isEmpty && scheme.all isAlphaCh) &&
    (match ref.dropWhile (fun c => c != ':') with
     | ':' :: _ => true
     | _ => false)

/-- Collapse every run of consecutive slashes in a path to a single slash.
Model of pathname.replace of the all-slash-runs regular expression with a
single slash in JSCollector.normalizeUrl. -/
def collapseSlashes : List Char → List Char
  | [] => []
  | [c] => [c]
  | a :: b :: rest =>
    if a = '/' ∧ b = '/' then collapseSlashes (b :: rest)
    else a :: collapseSlashes (b :: rest)

/-- A character list with no two adjacent slashes: the claim's notion of a
path with no doubled path separators. -/
def noDoubleSlash (l : List Char) : Prop :=
  l.Chain' (fun a b => ¬(a = '/' ∧ b = '/'))

/-- The prefix of a path up to and including its last slash; used for
relative-reference resolution. -/
def dirOf (p : List Char) : List Char :=
  (p.reverse.dropWhile (fun c => c != '/')).reverse

/-- Resolve a relative reference against a parsed base URL, the model of
new URL(ref, base) for references without a scheme.  Dot-segment removal is
not modelled; no property proved here depends on it. -/
def resolveRel (b : UrlRec) (ref : List Char) : UrlRec :=
  match ref with
  | [] => UrlRec.mk b.scheme b.host b.path b.query none
  | '/' :: _ =>
    let pqf := splitTail ref
    UrlRec.mk b.scheme b.host (if pqf.1.isEmpty then ['/'] else pqf.1) pqf.2.1 pqf.2.2
  | '?' :: _ =>
    let pqf := splitTail ref
    UrlRec.mk b.scheme b.host b.path pqf.2.1 pqf.2.2
  | '#' :: f => UrlRec.mk b.scheme b.host b.path b.query (some f)
  | _ =>
    let pqf := splitTail ref
    UrlRec.mk b.scheme b.host (dirOf b.path ++ pqf.1) pqf.2.1 pqf.2.2

/-- Model of new URL(url, base) followed by .href: an absolute reference,
hierarchical or opaque-path, resolves to itself (the platform treats every
reference carrying a valid scheme as absolute); a protocol-relative
reference takes the base scheme; a scheme-free reference is resolved
relative to the base; none where the platform parser throws.  Two model
boundaries: a scheme-bearing reference that neither parser accepts
(http:foo, foo:/p) returns none rather than the platform's value, and the
platform's base-parse failure on an unparsable base is not raised when the
reference is itself absolute. -/
def resolveList (ref base : List Char) : Option (List Char) :=
  match parseListUrl ref with
  | some r => some (hrefList r)
  | none =>
    match parseOpaqueUrl ref with
    | some o => some (hrefOpaque o)
    | none =>
      match ref with
      | '/' :: '/' :: _ =>
        match parseListUrl base with
        | some b => (parseListUrl (b.scheme ++ ':' :: ref)).map hrefList
        | none => none
      | _ =>
        if hasSchemeColon ref then none
        else
          match parseListUrl base with
          | some b => some (hrefList (resolveRel b ref))
          | none => none

/-- First step of JSCollector.normalizeUrl: a protocol-relative URL gets
the base protocol prepended; none models the throw of parsing a malformed
base inside the try block. -/
def step1Protocol (url base : List Char) : Option (List Char) :=
  match url with
  | '/' :: '/' :: _ =>
    match parseListUrl base with
    | some b => some (b.scheme ++ ':' :: url)
    | none => none
  | _ => some url

/-- Second step of JSCollector.normalizeUrl: a URL not starting with the
http or https scheme text is resolved against the base. -/
def step2Absolute (url1 base : List Char) : Option (List Char) :=
  if ("http://".data.isPrefixOf url1 || "https://".data.isPrefixOf url1) then some url1
  else resolveList url1 base

/-- Model of JSCollector.normalizeUrl on character lists, translated line
by line from the source: the two steps above, then the result is parsed,
its fragment removed and slash runs in its path collapsed; any parser
throw is caught and becomes none.  On an opaque-path result the fragment
assignment still applies but the pathname setter is a no-op, so the opaque
path is kept verbatim, doubled slashes included. -/
def normalizeUrlList (url base : List Char) : Option (List Char) :=
  match step1Protocol url base with
  | none => none
  | some url1 =>
    match step2Absolute url1 base with
    | none => none
    | some url2 =>
      match parseListUrl url2 with
      | some r => some (hrefList (UrlRec.mk r.scheme r.host (collapseSlashes r.path) r.query none))
      | none =>
        match parseOpaqueUrl url2 with
        | some o => some (hrefOpaque (OpaqueRec.mk o.scheme o.opath o.query none))
        | none => none

/-- Model of JSCollector.normalizeUrl: returns the canonical URL string or
none where the source logs the failure and returns null. -/
def normalizeUrl (url base : String) : Option String :=
  (normalizeUrlList url.data base.data).map (fun l => String.mk l)

/-- The hostname part of an authority component: the part after the last
at sign and before the first colon, the model of URL.hostname.  IPv6
bracket hosts are not treated specially. -/
def hostnameOfAuth (a : List Char) : List Char :=
  ((a.reverse.takeWhile (fun c => c != '@')).reverse).takeWhile (fun c => c != ':')

/-- The hostname of a URL string, none where new URL(s).hostname throws. -/
def urlHostname (s : String) : Option String :=
  (parseListUrl s.data).map (fun r => String.mk (hostnameOfAuth r.host))

/-- ASCII lowercase mapping, the model of toLowerCase on the ASCII range
handled here. -/
def lowerChar (c : Char) : Char :=
  if 'A' ≤ c ∧ c ≤ 'Z' then Char.ofNat (c.toNat + 32) else c

/-- Lowercase a character list. -/
def toLowerList (l : List Char) : List Char := l.map lowerChar

/-- Substring test on character lists, the model of String.includes. -/
def containsSeq (needle hay : List Char) : Bool :=
  hay.tails.any (fun t => needle.isPrefixOf t)

/-- Model of hay.includes(needle) on strings. -/
def includesStr (hay needle : String) : Bool := containsSeq needle.data hay.data

/-- Suffix test, the model of String.endsWith. -/
def endsWithList (suf l : List Char) : Bool := suf.isSuffixOf l

/-- The JavaScript MIME families recognised by the classifier, verbatim
from JSCollector.isJavaScriptUrl. -/
def jsContentTypes : List (List Char) :=
  ["application/javascript".data, "application/x-javascript".data, "text/javascript".data,
   "application/ecmascript".data, "text/ecmascript".data, "module".data]

/-- The bundler chunk words of the classifier's chunk-file pattern. -/
def bundleWords : List (List Char) :=
  ["chunk".data, "bundle".data, "vendor".data, "main".data, "app".data, "runtime".data]

/-- Does the list start with a bundler chunk occurrence: a dot, one of the
chunk words, optional digits, then the dot-js text?  Model of one match
position of the chunk-file regular expression. -/
def bundleStart (l : List Char) : Bool :=
  match l with
  | '.' :: rest =>
    bundleWords.any (fun w =>
      w.isPrefixOf rest && ".js".data.isPrefixOf ((rest.drop w.length).dropWhile isDigitCh))
  | _ => false

/-- Unanchored search for the bundler chunk pattern. -/
def bundleHit (l : List Char) : Bool := l.tails.any bundleStart

/-- Does the list start with a hash-named bundle occurrence: a dot, at
least eight lowercase hex digits, then the dot-js text?  Exact model of the
hex-hash regular expression on a lowercased subject: the hex run is
maximal, and since neither a dot nor the letters j and s are hex digits,
regex backtracking can never succeed with a shorter run. -/
def hashStart (l : List Char) : Bool :=
  match l with
  | '.' :: rest =>
    let run := rest.takeWhile isHexCh
    decide (8 ≤ run.length) && ".js".data.isPrefixOf (rest.drop run.length)
  | _ => false

/-- Unanchored search for the hex-hash bundle pattern. -/
def hashHit (l : List Char) : Bool := l.tails.any hashStart

/-- Model of JSCollector.isJavaScriptUrl, translated clause by clause: a
MIME-family substring hit on the lowercased content type, or a JS or TS
extension on the lowercased pathname, or a bundler chunk name, or a hex
hash segment before dot-js, or a nonempty query string together with
dot-js anywhere in the pathname; false when the URL does not parse. -/
def isJavaScriptUrl (url : String) (contentType : String) : Bool :=
  let ctHit :=
    if contentType != "" then
      jsContentTypes.any (fun ct => containsSeq ct (toLowerList contentType.data))
    else false
  if ctHit then true
  else
    match parseListUrl url.data with
    | none => false
    | some r =>
      let pathname := toLowerList r.path
      endsWithList ".js".data pathname || endsWithList ".mjs".data pathname ||
      endsWithList ".cjs".data pathname || endsWithList ".jsx".data pathname ||
      endsWithList ".ts".data pathname || endsWithList ".tsx".data pathname ||
      bundleHit pathname || hashHit pathname ||
      ((match r.query with | some (_ :: _) => true | _ => false) && containsSeq ".js".data pathname)

/-- Lexicographic order on character lists, the model of the default
string comparison used by Array.prototype.sort.  Characters are compared
by code point, which agrees with UTF-16 code-unit order on the basic
multilingual plane. -/
def listLe : List Char → List Char → Bool
  | [], _ => true
  | _ :: _, [] => false
  | a :: as, b :: bs => if a = b then listLe as bs else decide (a < b)

/-- Lexicographic order on strings. -/
def strLe (a b : String) : Bool := listLe a.data b.data

/-- Insert a string into a sorted list, keeping it sorted. -/
def insertSorted (x : String) : List String → List String
  | [] => [x]
  | y :: ys => if strLe x y then x :: y :: ys else y :: insertSorted x ys

/-- Insertion sort on strings, the model of Array.prototype.sort with the
default comparator (the sorted result, not the algorithm, is what the
source relies on). -/
def sortStrings (l : List String) : List String := l.foldr insertSorted []

/-- Add an element to a JavaScript Set modelled as a duplicate-free list in
insertion order: already-present elements leave the set unchanged, new
elements are appended. -/
def insertSet (l : List String) (x : String) : List String :=
  if x ∈ l then l else l ++ [x]

/-- The mutable discovery state of one JSCollector: the main result set
and the two auxiliary source-tag sets, each a JavaScript Set in insertion
order. -/
structure CollectorState where
  jsUrls : List String
  wsJsUrls : List String
  swScripts : List String
deriving DecidableEq

/-- The collector state right after construction. -/
def initState : CollectorState := CollectorState.mk [] [] []

/-- One discovery signal delivered to the collector, one constructor for
each insertion site in the source.  A wsFrameUrl event carries one match
of the URL-shaped regular expression over a WebSocket frame payload; a
response event carries URL, content-type header, status and body text. -/
inductive JsEvent where
  | response (url contentType : String) (status : Nat) (body : String)
  | wsFrameUrl (u : String)
  | domScript (src : String)
  | dynamicScript (src : String)
  | preloadLink (href : String)
  | moduleImportSpec (spec : String)
  | swRegisterLiteral (u : String)
  | swVersionUrl (u : String)
deriving DecidableEq

/-- First half of the response handler: classify the raw response URL and
content type, then normalise and insert into the result set. -/
def addClassified (target : String) (st : CollectorState) (url ct : String) : CollectorState :=
  if isJavaScriptUrl url ct then
    match normalizeUrl url target with
    | some n => CollectorState.mk (insertSet st.jsUrls n) st.wsJsUrls st.swScripts
    | none => st
  else st

/-- Second half of the response handler: the service-worker body sniff.
When the URL or content type looks service-worker-ish and the body carries
worker markers, the normalised URL is recorded in both the service-worker
set and the result set, without the classifier. -/
def addSwSniff (target : String) (st : CollectorState) (url ct body : String) : CollectorState :=
  if includesStr url "service-worker" || includesStr url "sw.js" || includesStr ct "javascript" then
    if includesStr body "self.addEventListener" || includesStr body "ServiceWorkerGlobalScope" then
      match normalizeUrl url target with
      | some n => CollectorState.mk (insertSet st.jsUrls n) st.wsJsUrls (insertSet st.swScripts n)
      | none => st
    else st
  else st

/-- The insertion pattern shared by the DOM, dynamic-creation, preload and
inline-module handlers: normalise, classify the normalised URL, insert on
a hit. -/
def addClassifiedNorm (target : String) (st : CollectorState) (u : String) : CollectorState :=
  match normalizeUrl u target with
  | some n =>
    if isJavaScriptUrl n "" then CollectorState.mk (insertSet st.jsUrls n) st.wsJsUrls st.swScripts
    else st
  | none => st

/-- The WebSocket-frame insertion: like addClassifiedNorm but also tagging
the URL in the WebSocket set. -/
def addWs (target : String) (st : CollectorState) (u : String) : CollectorState :=
  match normalizeUrl u target with
  | some n =>
    if isJavaScriptUrl n "" then
      CollectorState.mk (insertSet st.jsUrls n) (insertSet st.wsJsUrls n) st.swScripts
    else st
  | none => st

/-- The service-worker insertion used by extractServiceWorkers for both
the register-literal scan and the control-protocol enumeration: normalise
and insert into the service-worker set and the result set, with no
classifier involved. -/
def addSw (target : String) (st : CollectorState) (u : String) : CollectorState :=
  match normalizeUrl u target with
  | some n => CollectorState.mk (insertSet st.jsUrls n) st.wsJsUrls (insertSet st.swScripts n)
  | none => st

/-- Handle one discovery signal, translated from the corresponding source
handler: classify-then-insert for network, DOM, dynamic-creation,
preload, inline-module and WebSocket signals; normalise-and-insert,
without classification, for the service-worker signals and for the
response-body service-worker sniff. -/
def stepEvent (target : String) (st : CollectorState) (ev : JsEvent) : CollectorState :=
  match ev with
  | JsEvent.response url ct status body =>
    if 400 ≤ status then st
    else addSwSniff target (addClassified target st url ct) url ct body
  | JsEvent.wsFrameUrl u => addWs target st u
  | JsEvent.domScript src => addClassifiedNorm target st src
  | JsEvent.dynamicScript src => if src != "" then addClassifiedNorm target st src else st
  | JsEvent.preloadLink href => addClassifiedNorm target st href
  | JsEvent.moduleImportSpec spec => addClassifiedNorm target st spec
  | JsEvent.swRegisterLiteral u => addSw target st u
  | JsEvent.swVersionUrl u => if u != "" then addSw target st u else st

/-- The collector state after a sequence of discovery signals for one
target, starting from the fresh state. -/
def runEvents (target : String) (evs : List JsEvent) : CollectorState :=
  evs.foldl (stepEvent target) initState

/-- Model of JSCollector.getResults: the sorted array of the result set.
It is defined on every state, so calling it mid-run simply reports the
set accumulated so far. -/
def getResults (st : CollectorState) : List String := sortStrings st.jsUrls

/-- A thrown JavaScript error, reduced to its message. -/
structure JsError where
  message : String
deriving DecidableEq

/-- Model of the tail of JSCollector.collect: the state accumulated by the
navigation and extraction phase together with the error that phase raised,
if any.  An error whose message contains the Timeout text is swallowed and
the partial results are returned; any other error propagates. -/
def collectFinish (st : CollectorState) (navError : Option JsError) : Except JsError (List String) :=
  match navError with
  | none => Except.ok (getResults st)
  | some e =>
    if includesStr e.message "Timeout" then Except.ok (getResults st)
    else Except.error e

/-- Fuel-driven glob matcher: a star matches any substring, every other
character is literal, the match is anchored at both ends.  Every recursive
call consumes one unit of fuel and shrinks the combined length of pattern
and subject by at least one, so the fuel supplied by globMatch below never
runs out and the zero-fuel branch is unreachable. -/
def globFuel : Nat → List Char → List Char → Bool
  | 0, _, _ => false
  | _ + 1, [], s => s.isEmpty
  | fuel + 1, '*' :: ps, s =>
    globFuel fuel ps s ||
      (match s with
       | [] => false
       | _ :: s2 => globFuel fuel ('*' :: ps) s2)
  | _ + 1, _ :: _, [] => false
  | fuel + 1, p :: ps, c :: s => p = c && globFuel fuel ps s

/-- Glob matching with a star matching any substring and every other
character literal.  Model of the anchored regular expression built by
matchDomainPattern, which escapes dots and turns stars into dot-star; the
model is exact for patterns made of literal characters, dots and stars
(regex metacharacters other than the dot are passed through unescaped by
the source and are outside this model). -/
def globMatch (p s : List Char) : Bool :=
  globFuel (p.length + s.length + 1) p s

/-- Model of matchDomainPattern: case-insensitive anchored glob match of a
pattern against a hostname. -/
def matchDomainPattern (hostname pattern : String) : Bool :=
  globMatch (toLowerList pattern.data) (toLowerList hostname.data)

/-- The per-URL survival test of filterUrls: the hostname must parse, a
nonempty allow list must have a match, and no deny pattern may match; a
URL whose hostname throws is dropped. -/
def domainPred (filterDomain excludeDomain : List String) (jsUrl : String) : Bool :=
  match urlHostname jsUrl with
  | none => false
  | some hostname =>
    if !filterDomain.isEmpty && !(filterDomain.any (fun p => matchDomainPattern hostname p)) then false
    else if !excludeDomain.isEmpty && excludeDomain.any (fun p => matchDomainPattern hostname p) then false
    else true

/-- Model of filterUrls: with no patterns the input passes through
unchanged; otherwise the survival test above is filtered over the list.
The absent-option case of the source is modelled by the empty pattern
list. -/
def filterUrls (jsUrls : List String) (filterDomain excludeDomain : List String) : List String :=
  if filterDomain.isEmpty && excludeDomain.isEmpty then jsUrls
  else jsUrls.filter (domainPred filterDomain excludeDomain)

/-- Fuel-driven batch splitter: each step consumes at least one list
element and one unit of fuel, so fuel equal to the list length never runs
out and the zero-fuel branch is unreachable. -/
def chunkFuel : Nat → Nat → List α → List (List α)
  | 0, _, _ => []
  | _ + 1, _, [] => []
  | fuel + 1, n, x :: xs => (x :: xs.take (n - 1)) :: chunkFuel fuel n (xs.drop (n - 1))

/-- Consecutive batches of at most n elements, in order: the model of the
slice loop of collectMultipleJS.  For n of zero the source loop would not
terminate, and every property below assumes n is at least one. -/
def chunkList (n : Nat) (l : List α) : List (List α) := chunkFuel l.length n l

/-- One observable step of the multi-target orchestrator. -/
inductive OrchStep where
  | launch
  | runBatch (batch : List String)
  | closeBrowser
deriving DecidableEq

/-- The orchestration trace of collectMultipleJS: one shared browser
launch, the batches run in order (each batch awaited to completion before
the next starts), and one browser teardown in the finally block after the
last batch, regardless of per-target outcomes. -/
def orchTrace (validUrls : List String) (threads : Nat) : List OrchStep :=
  OrchStep.launch :: ((chunkList threads validUrls).map OrchStep.runBatch ++ [OrchStep.closeBrowser])

/-- The settled result of one target inside a batch: the resolved value of
the per-target promise, whose catch clause turns any error into an empty
URL list plus the error message. -/
structure TargetResult where
  url : String
  jsUrls : List String
  error : Option String
deriving DecidableEq

/-- Run one target through the per-target try/catch of collectMultipleJS;
the target's outcome (its collector run) is a parameter. -/
def runTarget (outcome : String → Except String (List String)) (u : String) : TargetResult :=
  match outcome u with
  | Except.ok js => TargetResult.mk u js none
  | Except.error e => TargetResult.mk u [] (some e)

/-- JavaScript Map.set on an association list in insertion order: an
existing key is updated in place, a new key is appended. -/
def mapSet (m : List (String × List String)) (k : String) (v : List String) : List (String × List String) :=
  if m.any (fun p => p.1 == k) then m.map (fun p => if p.1 == k then (k, v) else p)
  else m ++ [(k, v)]

/-- Model of the aggregation loop of collectMultipleJS: the validated
targets are processed in batches, each batch's settled results are folded
into the result map in array order, and only targets with a nonempty URL
list are recorded. -/
def collectMultipleJS (validUrls : List String) (threads : Nat)
    (outcome : String → Except String (List String)) : List (String × List String) :=
  let batches := chunkList threads validUrls
  let processed := (batches.map (fun b => b.map (runTarget outcome))).flatten
  processed.foldl (fun m r => if 0 < r.jsUrls.length then mapSet m r.url r.jsUrls else m) []

/-- Whitespace test covering the characters relevant to the line filter. -/
def isWsCh (c : Char) : Bool := c == ' ' || c == '\t' || c == '\n' || c == '\r'

/-- A line that String.trim would reduce to the empty string. -/
def blankLine (l : List Char) : Bool := l.all isWsCh

/-- Split on newline characters, the model of String.split with a newline
separator: one (possibly empty) field per separator gap. -/
def splitNl : List Char → List (List Char)
  | [] => [[]]
  | c :: rest =>
    if c = '\n' then [] :: splitNl rest
    else
      match splitNl rest with
      | [] => [[c]]
      | h :: t => (c :: h) :: t

/-- The nonblank lines of a file content, the model of reading a prior
output: split on newlines and drop lines that trim to nothing. -/
def lineSetList (content : List Char) : List (List Char) :=
  (splitNl content).filter (fun l => !blankLine l)

/-- Join with newline separators, the model of Array.prototype.join. -/
def joinNlList : List (List Char) → List Char
  | [] => []
  | [l] => l
  | l :: rest => l ++ '\n' :: joinNlList rest

/-- Model of the output section of collectJS on character lists: in resume
mode with a nonempty prior line set, append exactly the fresh URLs not
already present as lines (nothing when there are none); otherwise
overwrite the file with the fresh list. -/
def resumeMergeList (prior : List Char) (fresh : List (List Char)) (resume : Bool) : List Char :=
  let existing := lineSetList prior
  let newUrls := fresh.filter (fun u => !(decide (u ∈ existing)))
  if resume && !existing.isEmpty then
    if !newUrls.isEmpty then prior ++ joinNlList newUrls ++ ['\n'] else prior
  else joinNlList fresh ++ ['\n']

/-- Model of the output section of collectJS on strings: the final content
of the output file, given its prior content (the empty prior also models
a missing file, whose line set is likewise empty). -/
def resumeMerge (prior : String) (fresh : List String) (resume : Bool) : String :=
  String.mk (resumeMergeList prior.data (fresh.map String.data) resume)

/-- First-occurrence deduplication, the model of spreading a Set built
from an array. -/
def dedupKeepFirst (l : List String) : List String := l.foldl insertSet []

/-- The concatenation of the filtered per-target URL lists, in target
order: the combined array built by handleMultiOutput. -/
def combinedUrls (allResults : List (String × List String)) (fd ed : List String) : List String :=
  (allResults.map (fun p => filterUrls p.2 fd ed)).flatten

/-- Model of the combined-output block of handleMultiOutput: in resume
mode with a nonempty prior line set, append the not-yet-present combined
URLs (with their duplicates); otherwise overwrite with the deduplicated
combined list in first-occurrence order. -/
def combinedFileContent (allResults : List (String × List String)) (fd ed : List String)
    (resume : Bool) (prior : String) : String :=
  let combined := combinedUrls allResults fd ed
  let existing := if resume then lineSetList prior.data else []
  let newUrls := combined.filter (fun u => !(decide (u.data ∈ existing)))
  let deduped := dedupKeepFirst combined
  if resume && !existing.isEmpty then
    if !newUrls.isEmpty then String.mk (prior.data ++ joinNlList (newUrls.map String.data) ++ ['\n'])
    else prior
  else String.mk (joinNlList (deduped.map String.data) ++ ['\n'])

/-- Model of the default stdout path of handleMultiOutput: the
deduplicated combined list, sorted. -/
def stdoutCombined (allResults : List (String × List String)) (fd ed : List String) : List String :=
  sortStrings (dedupKeepFirst (combinedUrls allResults fd ed))

/-- The base64 alphabet. -/
def b64Alphabet : List Char :=
  "ABCDEFGHIJKLMNOPQRSTUVWXYZabcdefghijklmnopqrstuvwxyz0123456789+/".data

/-- One base64 digit. -/
def b64Char (n : Nat) : Char := b64Alphabet.getD n '='

/-- Base64 encoding of a byte list, the model of Buffer.toString at base64:
three bytes become four digits, with equals-sign padding. -/
def base64Of : List Nat → List Char
  | [] => []
  | [b1] => [b64Char (b1 / 4), b64Char (b1 % 4 * 16), '=', '=']
  | [b1, b2] => [b64Char (b1 / 4), b64Char (b1 % 4 * 16 + b2 / 16), b64Char (b2 % 16 * 4), '=']
  | b1 :: b2 :: b3 :: rest =>
    [b64Char (b1 / 4), b64Char (b1 % 4 * 16 + b2 / 16), b64Char (b2 % 16 * 4 + b3 / 64),
     b64Char (b3 % 64)] ++ base64Of rest

/-- The bytes of a URL string, modelled as code points; this agrees with
the UTF-8 bytes taken by Buffer.from on the ASCII characters URLs are made
of. -/
def urlBytes (s : String) : List Nat := s.data.map Char.toNat

/-- A filename character survives sanitisation if it is alphanumeric, a
dot, an underscore or a hyphen; everything else becomes an underscore. -/
def sanitizeChar (c : Char) : Char :=
  if isAlphaCh c || isDigitCh c || c = '.' || c = '_' || c = '-' then c else '_'

/-- Model of path.basename on a posix pathname: trailing slashes are
ignored, the last segment is returned; an all-slash pathname gives a
single slash and an empty pathname gives the empty name. -/
def basenameList (p : List Char) : List Char :=
  let trimmed := p.reverse.dropWhile (fun c => c == '/')
  if trimmed.isEmpty then (if p.isEmpty then [] else ['/'])
  else (trimmed.takeWhile (fun c => c != '/')).reverse

/-- The fallback filename built from a base64 hash of the whole URL. -/
def hashName (url : String) : List Char :=
  "script_".data ++ (base64Of (urlBytes url)).take 16 ++ ".js".data

/-- Model of JSDownloader.sanitizeFilename: the sanitised basename of the
URL path (or a hash-derived name when there is none), prefixed with the
hostname with dots replaced by underscores; unparsable URLs get the
hash-derived name alone. -/
def sanitizeFilename (url : String) : String :=
  match parseListUrl url.data with
  | some r =>
    let filename0 := basenameList r.path
    let filename1 := if filename0.isEmpty || filename0 == ['/'] then hashName url else filename0
    let filename2 := filename1.map sanitizeChar
    let host := (hostnameOfAuth r.host).map (fun c => if c = '.' then '_' else c)
    String.mk (host ++ '_' :: filename2)
  | none => String.mk (hashName url)

/-- One downloaded file record, the element of the results array of
downloadAll. -/
structure DlResult where
  url : String
  content : String
  path : String
deriving DecidableEq

/-- The state threaded through the download loop: the files on disk under
the output directory (an association list from path to content, writes
updating in place), the results and errors arrays, and the set of content
hashes accepted so far.  The SHA-256 hash is modelled by the content
itself, which is faithful for the equality tests the source performs on
it. -/
structure DlState where
  fsMap : List (String × String)
  results : List DlResult
  errors : List (String × String)
  seenHashes : List String
deriving DecidableEq

/-- Write a file: update the entry in place if the path exists, append
otherwise. -/
def fsWrite (fs : List (String × String)) (p c : String) : List (String × String) :=
  if fs.any (fun e => e.1 == p) then fs.map (fun e => if e.1 == p then (p, c) else e)
  else fs ++ [(p, c)]

/-- Delete a file, the model of fs.unlinkSync. -/
def fsRemove (fs : List (String × String)) (p : String) : List (String × String) :=
  fs.filter (fun e => !(e.1 == p))

/-- One iteration of the download loop of JSDownloader.downloadAll: fetch,
write to the sanitised path, then under content dedup delete the
just-written file and skip the result when the content hash was already
accepted. -/
def downloadStep (outputDir : String) (dedup : Bool) (fetch : String → Except String String)
    (st : DlState) (url : String) : DlState :=
  match fetch url with
  | Except.error e => DlState.mk st.fsMap st.results (st.errors ++ [(url, e)]) st.seenHashes
  | Except.ok content =>
    let p := outputDir ++ "/" ++ sanitizeFilename url
    let fs1 := fsWrite st.fsMap p content
    if dedup then
      if st.seenHashes.contains content then
        DlState.mk (fsRemove fs1 p) st.results st.errors st.seenHashes
      else DlState.mk fs1 (st.results ++ [DlResult.mk url content p]) st.errors (st.seenHashes ++ [content])
    else DlState.mk fs1 (st.results ++ [DlResult.mk url content p]) st.errors st.seenHashes

/-- Model of JSDownloader.downloadAll over an empty output directory; the
per-URL fetch outcome is a parameter standing for the network. -/
def downloadAll (urls : List String) (fetch : String → Except String String)
    (outputDir : String) (dedup : Bool) : DlState :=
  urls.foldl (downloadStep outputDir dedup fetch) (DlState.mk [] [] [] [])

/-- Modelled from the spec: the predicate of the C8 wording, a valid
absolute URL whose scheme is http or https. -/
def httpSchemeUrl (s : String) : Bool :=
  match parseListUrl s.data with
  | some r => r.scheme == "http".data || r.scheme == "https".data
  | none => false

/-! Helper lemmas about takeWhile and dropWhile at a predicate boundary. -/

theorem takeWhile_app_not {α : Type} (p : α → Bool) (l1 : List α) (c : α) (l2 : List α)
    (h1 : ∀ x ∈ l1, p x = true) (h2 : p c = false) :
    (l1 ++ c :: l2).takeWhile p = l1 := by
  induction l1 with
  | nil => simp [List.takeWhile_cons, h2]
  | cons a t ih =>
    have ha := h1 a (by simp)
    simp only [List.cons_append, List.takeWhile_cons, ha, if_true]
    rw [ih (fun x hx => h1 x (by simp [hx]))]

theorem dropWhile_app_not {α : Type} (p : α → Bool) (l1 : List α) (c : α) (l2 : List α)
    (h1 : ∀ x ∈ l1, p x = true) (h2 : p c = false) :
    (l1 ++ c :: l2).dropWhile p = c :: l2 := by
  induction l1 with
  | nil => simp [List.dropWhile_cons, h2]
  | cons a t ih =>
    have ha := h1 a (by simp)
    simp only [List.cons_append, List.dropWhile_cons, ha, if_true]
    exact ih (fun x hx => h1 x (by simp [hx]))

theorem takeWhile_all_eq {α : Type} (p : α → Bool) (l : List α)
    (h : ∀ x ∈ l, p x = true) : l.takeWhile p = l := by
  induction l with
  | nil => rfl
  | cons a t ih =>
    have ha := h a (by simp)
    simp only [List.takeWhile_cons, ha, if_true]
    rw [ih (fun x hx => h x (by simp [hx]))]

theorem dropWhile_all_nil {α : Type} (p : α → Bool) (l : List α)
    (h : ∀ x ∈ l, p x = true) : l.dropWhile p = [] := by
  induction l with
  | nil => rfl
  | cons a t ih =>
    have ha := h a (by simp)
    simp only [List.dropWhile_cons, ha, if_true]
    exact ih (fun x hx => h x (by simp [hx]))

theorem mem_takeWhile_and_mem {α : Type} (p : α → Bool) (l : List α) (x : α)
    (h : x ∈ l.takeWhile p) : p x = true ∧ x ∈ l := by
  induction l with
  | nil => simp [List.takeWhile] at h
  | cons a t ih =>
    rw [List.takeWhile_cons] at h
    by_cases hp : p a = true
    · simp only [hp, if_true, List.mem_cons] at h
      rcases h with h | h
      · exact ⟨h ▸ hp, by simp [h]⟩
      · rcases ih h with ⟨h1, h2⟩
        exact ⟨h1, by simp [h2]⟩
    · simp [hp] at h

theorem mem_dropWhile_mem {α : Type} (p : α → Bool) (l : List α) (x : α)
    (h : x ∈ l.dropWhile p) : x ∈ l := by
  induction l with
  | nil => simp [List.dropWhile] at h
  | cons a t ih =>
    rw [List.dropWhile_cons] at h
    by_cases hp : p a = true
    · simp only [hp, if_true] at h
      simp [ih h]
    · simp only [hp] at h
      simpa using h

theorem dropWhile_head_false {α : Type} (p : α → Bool) (l : List α) (c : α) (t : List α)
    (h : l.dropWhile p = c :: t) : p c = false := by
  induction l with
  | nil => simp [List.dropWhile] at h
  | cons a s ih =>
    rw [List.dropWhile_cons] at h
    by_cases hp : p a = true
    · simp only [hp, if_true] at h
      exact ih h
    · simp only [hp, if_false] at h
      cases h
      simpa using hp

/-! The parse and serialise functions are mutually inverse on well-formed
records; these lemmas carry the normalisation idempotence argument. -/

theorem alpha_bne_colon (c : Char) (h : isAlphaCh c = true) : (c != ':') = true := by
  rcases eq_or_ne c ':' with rfl | hne
  · exact absurd h (by decide)
  · simp [hne]

theorem splitTail_ser (path : List Char) (q f : Option (List Char))
    (hp : ∀ c ∈ path, c ≠ '?' ∧ c ≠ '#') (hq : queryOK q) :
    splitTail (path ++ qSer q ++ fSer f) = (path, q, f) := by
  have hpNoHash : ∀ c ∈ path, ((fun c => c != '#') c) = true := fun c hc => by
    simp [(hp c hc).2]
  have hpNoQ : ∀ c ∈ path, ((fun c => c != '?') c) = true := fun c hc => by
    simp [(hp c hc).1]
  cases q with
  | none =>
    cases f with
    | none =>
      simp only [qSer, fSer, List.append_nil, splitTail]
      rw [takeWhile_all_eq _ _ hpNoHash, dropWhile_all_nil _ _ hpNoHash,
          takeWhile_all_eq _ _ hpNoQ, dropWhile_all_nil _ _ hpNoQ]
    | some ff =>
      simp only [qSer, fSer, List.append_nil, splitTail]
      rw [takeWhile_app_not _ _ _ _ hpNoHash (by decide),
          dropWhile_app_not _ _ _ _ hpNoHash (by decide),
          takeWhile_all_eq _ _ hpNoQ, dropWhile_all_nil _ _ hpNoQ]
      rfl
  | some qq =>
    simp only [queryOK] at hq
    have hall : ∀ c ∈ path ++ '?' :: qq, ((fun c => c != '#') c) = true := by
      intro c hc
      rcases List.mem_append.1 hc with hc | hc
      · exact hpNoHash c hc
      · rcases List.mem_cons.1 hc with rfl | hc
        · decide
        · simp [hq c hc]
    cases f with
    | none =>
      simp only [qSer, fSer, List.append_nil, splitTail]
      rw [takeWhile_all_eq _ _ hall, dropWhile_all_nil _ _ hall,
          takeWhile_app_not _ _ _ _ hpNoQ (by decide),
          dropWhile_app_not _ _ _ _ hpNoQ (by decide)]
      rfl
    | some ff =>
      simp only [qSer, fSer, splitTail]
      rw [takeWhile_app_not _ _ _ _ hall (by decide),
          dropWhile_app_not _ _ _ _ hall (by decide),
          takeWhile_app_not _ _ _ _ hpNoQ (by decide),
          dropWhile_app_not _ _ _ _ hpNoQ (by decide)]
      rfl

theorem parse_hrefList (r : UrlRec) (h : WF r) : parseListUrl (hrefList r) = some r := by
  obtain ⟨⟨hs1, hs2⟩, ⟨hh1, hh2⟩, ⟨⟨t, hpt⟩, hp2⟩, hq⟩ := h
  have hsColon : ∀ c ∈ r.scheme, ((fun c => c != ':') c) = true := fun c hc =>
    alpha_bne_colon c (hs2 c hc)
  have hse : r.scheme.isEmpty = false := by
    cases hsc : r.scheme with
    | nil => exact absurd hsc hs1
    | cons a as => rfl
  have hsa : r.scheme.all isAlphaCh = true := List.all_eq_true.mpr hs2
  have hhAuth : ∀ c ∈ r.host, isAuthChar c = true := fun c hc => (hh2 c hc).1
  have hhe : r.host.isEmpty = false := by
    cases hhc : r.host with
    | nil => exact absurd hhc hh1
    | cons a as => rfl
  have hhv : r.host.all (fun c => c != ' ' && c != '\\') = true := by
    refine List.all_eq_true.mpr (fun c hc => ?_)
    obtain ⟨_, h2, h3⟩ := hh2 c hc
    simp [h2, h3]
  unfold hrefList parseListUrl
  rw [takeWhile_app_not _ _ _ _ hsColon (by decide),
      dropWhile_app_not _ _ _ _ hsColon (by decide)]
  simp only [hse, hsa, Bool.not_false, Bool.and_self, if_true]
  rw [hpt]
  have hshape : r.host ++ ('/' :: t ++ qSer r.query ++ fSer r.frag) =
      r.host ++ '/' :: (t ++ qSer r.query ++ fSer r.frag) := by
    simp [List.append_assoc]
  simp only [List.append_assoc, List.cons_append]
  rw [takeWhile_app_not _ _ _ _ hhAuth (by decide),
      dropWhile_app_not _ _ _ _ hhAuth (by decide)]
  simp only [hhe, hhv, Bool.not_false, Bool.and_self, if_true]
  have hsplit : splitTail ('/' :: (t ++ (qSer r.query ++ fSer r.frag))) =
      (r.path, r.query, r.frag) := by
    have : ('/' :: (t ++ (qSer r.query ++ fSer r.frag)) : List Char) =
        r.path ++ qSer r.query ++ fSer r.frag := by
      rw [hpt]; simp [List.append_assoc]
    rw [this, splitTail_ser r.path r.query r.frag hp2 hq]
  rw [hsplit]
  have hpe : r.path.isEmpty = false := by rw [hpt]; rfl
  simp [hpe]

theorem splitTail_pq_props (rest : List Char) :
    (∀ c ∈ (splitTail rest).1, c ≠ '?' ∧ c ≠ '#') ∧ queryOK (splitTail rest).2.1 := by
  constructor
  · intro c hc
    simp only [splitTail] at hc
    obtain ⟨hq, hc2⟩ := mem_takeWhile_and_mem _ _ _ hc
    obtain ⟨hh, _⟩ := mem_takeWhile_and_mem _ _ _ hc2
    constructor
    · simpa using hq
    · simpa using hh
  · simp only [splitTail]
    cases hqt : (rest.takeWhile (fun c => c != '#')).dropWhile (fun c => c != '?') with
    | nil => simp [hqt, queryOK]
    | cons c qq =>
      have hc := dropWhile_head_false _ _ _ _ hqt
      have hc2 : c = '?' := by simpa using hc
      subst hc2
      simp only [hqt]
      intro x hx
      have hx2 : x ∈ ('?' :: qq : List Char) := by simp [hx]
      rw [← hqt] at hx2
      have hx3 := mem_dropWhile_mem _ _ _ hx2
      obtain ⟨hh, _⟩ := mem_takeWhile_and_mem _ _ _ hx3
      simpa using hh

theorem splitTail_path_shape (rest2 : List Char) :
    (splitTail (rest2.dropWhile isAuthChar)).1 = [] ∨
    ∃ t, (splitTail (rest2.dropWhile isAuthChar)).1 = '/' :: t := by
  cases hr3 : rest2.dropWhile isAuthChar with
  | nil => simp [splitTail]
  | cons c t =>
    have hc := dropWhile_head_false _ _ _ _ hr3
    have hc2 : c = '/' ∨ c = '?' ∨ c = '#' := by
      by_contra hcon
      push_neg at hcon
      obtain ⟨h1, h2, h3⟩ := hcon
      simp [isAuthChar, h1, h2, h3] at hc
    rcases hc2 with rfl | rfl | rfl
    · right
      refine ⟨(t.takeWhile (fun c => c != '#')).takeWhile (fun c => c != '?'), ?_⟩
      simp [splitTail, List.takeWhile_cons]
    · left
      simp [splitTail, List.takeWhile_cons]
    · left
      simp [splitTail, List.takeWhile_cons]

theorem pathOK_of_shape (p0 : List Char) (hchars : ∀ c ∈ p0, c ≠ '?' ∧ c ≠ '#')
    (hshape : p0 = [] ∨ ∃ t, p0 = '/' :: t) :
    pathOK (if p0.isEmpty then ['/'] else p0) := by
  rcases hshape with rfl | ⟨t, rfl⟩
  · show pathOK ['/']
    refine ⟨⟨[], rfl⟩, ?_⟩
    intro c hc
    simp only [List.mem_singleton] at hc
    subst hc
    decide
  · show pathOK ('/' :: t)
    exact ⟨⟨t, rfl⟩, hchars⟩

theorem parse_WF (s : List Char) (r : UrlRec) (h : parseListUrl s = some r) : WF r := by
  simp only [parseListUrl] at h
  split at h
  · split at h
    · split at h
      · next rest2 heq hguard1 hguard2 =>
        injection h with h2
        subst h2
        rw [Bool.and_eq_true] at hguard1 hguard2
        obtain ⟨hg1a, hg1b⟩ := hguard1
        obtain ⟨hg2a, hg2b⟩ := hguard2
        have hg1a2 : (s.takeWhile (fun c => c != ':')) ≠ [] := by
          intro hnil
          rw [hnil] at hg1a
          simp at hg1a
        have hg2a2 : (rest2.takeWhile isAuthChar) ≠ [] := by
          intro hnil
          rw [hnil] at hg2a
          simp at hg2a
        have hhost : ∀ c ∈ rest2.takeWhile isAuthChar, isAuthChar c = true ∧ c ≠ ' ' ∧ c ≠ '\\' := by
          intro c hc
          have hauth := (mem_takeWhile_and_mem _ _ _ hc).1
          have hval := List.all_eq_true.mp hg2b c hc
          rw [Bool.and_eq_true] at hval
          refine ⟨hauth, ?_, ?_⟩
          · simpa using hval.1
          · simpa using hval.2
        exact ⟨⟨hg1a2, fun c hc => List.all_eq_true.mp hg1b c hc⟩, ⟨hg2a2, hhost⟩,
          pathOK_of_shape _ (splitTail_pq_props _).1 (splitTail_path_shape rest2),
          (splitTail_pq_props _).2⟩
      · exact absurd h (by simp)
    · exact absurd h (by simp)
  · exact absurd h (by simp)

theorem startsWithSlash_false (l : List Char) (h : startsWithSlash l = false) :
    l = [] ∨ ∃ c t, l = c :: t ∧ c ≠ '/' := by
  cases l with
  | nil => exact Or.inl rfl
  | cons c t =>
    right
    refine ⟨c, t, rfl, ?_⟩
    intro hc
    subst hc
    simp [startsWithSlash] at h

theorem startsWithSlash_append (a b2 : List Char) (ha : startsWithSlash a = false)
    (hb : startsWithSlash b2 = false) : startsWithSlash (a ++ b2) = false := by
  cases a with
  | nil => exact hb
  | cons c t =>
    simp only [List.cons_append, startsWithSlash] at ha ⊢
    exact ha

theorem startsWithSlash_qf (q f : Option (List Char)) :
    startsWithSlash (qSer q ++ fSer f) = false := by
  cases q with
  | some qq => rfl
  | none =>
    cases f with
    | some ff => rfl
    | none => rfl

theorem splitTail_head_cons (c : Char) (t : List Char) :
    (splitTail (c :: t)).1 = [] ∨ ∃ t2, (splitTail (c :: t)).1 = c :: t2 := by
  simp only [splitTail, List.takeWhile_cons]
  by_cases h1 : ((c != '#') = true)
  · rw [if_pos h1, List.takeWhile_cons]
    by_cases h2 : ((c != '?') = true)
    · rw [if_pos h2]
      exact Or.inr ⟨_, rfl⟩
    · rw [if_neg h2]
      exact Or.inl rfl
  · rw [if_neg h1]
    exact Or.inl rfl

theorem parseOpaque_cons (scheme rest : List Char)
    (hs1 : scheme ≠ []) (hs2 : ∀ c ∈ scheme, isAlphaCh c = true)
    (hns : specialSchemes.contains scheme = false)
    (hrest : startsWithSlash rest = false) :
    parseOpaqueUrl (scheme ++ ':' :: rest) =
      some (OpaqueRec.mk scheme (splitTail rest).1 (splitTail rest).2.1 (splitTail rest).2.2) := by
  have hsColon : ∀ c ∈ scheme, ((fun c => c != ':') c) = true := fun c hc =>
    alpha_bne_colon c (hs2 c hc)
  have hse : scheme.isEmpty = false := by
    cases hsc : scheme with
    | nil => exact absurd hsc hs1
    | cons a as => rfl
  have hsa : scheme.all isAlphaCh = true := List.all_eq_true.mpr hs2
  unfold parseOpaqueUrl
  rw [takeWhile_app_not _ _ _ _ hsColon (by decide),
      dropWhile_app_not _ _ _ _ hsColon (by decide)]
  simp only [hse, hsa, hns, hrest, Bool.not_false, Bool.and_self, Bool.and_true,
    Bool.true_and, if_true]

theorem parseOpaque_hrefOpaque (o : OpaqueRec) (h : WFopq o) :
    parseOpaqueUrl (hrefOpaque o) = some o := by
  obtain ⟨⟨hs1, hs2⟩, hns, hsl, hpc, hq⟩ := h
  have hassoc : o.opath ++ qSer o.query ++ fSer o.frag =
      o.opath ++ (qSer o.query ++ fSer o.frag) := by
    rw [List.append_assoc]
  have hrest : startsWithSlash (o.opath ++ qSer o.query ++ fSer o.frag) = false := by
    rw [hassoc]
    exact startsWithSlash_append _ _ hsl (startsWithSlash_qf _ _)
  have hmain := parseOpaque_cons o.scheme (o.opath ++ qSer o.query ++ fSer o.frag)
    hs1 hs2 hns hrest
  rw [splitTail_ser o.opath o.query o.frag hpc hq] at hmain
  exact hmain

theorem parseListUrl_hrefOpaque (o : OpaqueRec) (h : WFopq o) :
    parseListUrl (hrefOpaque o) = none := by
  obtain ⟨⟨hs1, hs2⟩, hns, hsl, hpc, hq⟩ := h
  have hsColon : ∀ c ∈ o.scheme, ((fun c => c != ':') c) = true := fun c hc =>
    alpha_bne_colon c (hs2 c hc)
  have hassoc : o.opath ++ qSer o.query ++ fSer o.frag =
      o.opath ++ (qSer o.query ++ fSer o.frag) := by
    rw [List.append_assoc]
  have hrest : startsWithSlash (o.opath ++ qSer o.query ++ fSer o.frag) = false := by
    rw [hassoc]
    exact startsWithSlash_append _ _ hsl (startsWithSlash_qf _ _)
  unfold hrefOpaque parseListUrl
  rw [takeWhile_app_not _ _ _ _ hsColon (by decide),
      dropWhile_app_not _ _ _ _ hsColon (by decide)]
  rcases startsWithSlash_false _ hrest with hnil | ⟨c, t, heq, hc⟩
  · rw [hnil]
    rfl
  · rw [heq]
    split
    · rename_i r2 heq2
      injection heq2 with h1 h2
      injection h2 with h3 h4
      exact absurd h3 hc
    · rfl

theorem parseOpaque_WF (s : List Char) (o : OpaqueRec) (h : parseOpaqueUrl s = some o) :
    WFopq o := by
  simp only [parseOpaqueUrl] at h
  split at h
  · next rest heq =>
    split at h
    · next hguard =>
      injection h with h2
      subst h2
      rw [Bool.and_eq_true, Bool.and_eq_true, Bool.and_eq_true] at hguard
      obtain ⟨⟨⟨hg1, hg2⟩, hg3⟩, hg4⟩ := hguard
      have hs1 : (s.takeWhile (fun c => c != ':')) ≠ [] := by
        intro hnil
        rw [hnil] at hg1
        simp at hg1
      have hns : specialSchemes.contains (s.takeWhile (fun c => c != ':')) = false := by
        cases hcc : specialSchemes.contains (s.takeWhile (fun c => c != ':')) with
        | false => rfl
        | true => rw [hcc] at hg3; simp at hg3
      have hrest : startsWithSlash rest = false := by
        cases hcc : startsWithSlash rest with
        | false => rfl
        | true => rw [hcc] at hg4; simp at hg4
      have hsl : startsWithSlash (splitTail rest).1 = false := by
        cases rest with
        | nil => rfl
        | cons c t =>
          rcases splitTail_head_cons c t with hnil2 | ⟨t2, hcons⟩
          · rw [hnil2]; rfl
          · rw [hcons]
            have hcslash : (c == '/') = false := by
              simpa [startsWithSlash] using hrest
            simp [startsWithSlash, hcslash]
      exact ⟨⟨hs1, fun c hc => List.all_eq_true.mp hg2 c hc⟩, hns, hsl,
        (splitTail_pq_props rest).1, (splitTail_pq_props rest).2⟩
    · exact absurd h (by simp)
  · exact absurd h (by simp)

theorem WFopq_strip (o : OpaqueRec) (h : WFopq o) :
    WFopq (OpaqueRec.mk o.scheme o.opath o.query none) := by
  obtain ⟨h1, h2, h3, h4, h5⟩ := h
  exact ⟨h1, h2, h3, h4, h5⟩

theorem collapse_two_pos (a b : Char) (rest : List Char) (h : a = '/' ∧ b = '/') :
    collapseSlashes (a :: b :: rest) = collapseSlashes (b :: rest) := by
  simp only [collapseSlashes]
  rw [if_pos h]

theorem collapse_two_neg (a b : Char) (rest : List Char) (h : ¬(a = '/' ∧ b = '/')) :
    collapseSlashes (a :: b :: rest) = a :: collapseSlashes (b :: rest) := by
  simp only [collapseSlashes]
  rw [if_neg h]

theorem collapse_head (x : Char) (xs : List Char) :
    ∃ t, collapseSlashes (x :: xs) = x :: t := by
  induction xs generalizing x with
  | nil => exact ⟨[], rfl⟩
  | cons b rest ih =>
    by_cases hxb : x = '/' ∧ b = '/'
    · obtain ⟨t, ht⟩ := ih b
      refine ⟨t, ?_⟩
      rw [collapse_two_pos _ _ _ hxb, ht, hxb.2, hxb.1]
    · exact ⟨collapseSlashes (b :: rest), collapse_two_neg _ _ _ hxb⟩

theorem collapse_chain (l : List Char) : noDoubleSlash (collapseSlashes l) := by
  induction l with
  | nil => exact List.chain'_nil
  | cons a l2 ih =>
    cases l2 with
    | nil => exact List.chain'_singleton a
    | cons b rest =>
      by_cases hab : a = '/' ∧ b = '/'
      · rw [noDoubleSlash, collapse_two_pos _ _ _ hab]
        exact ih
      · rw [noDoubleSlash, collapse_two_neg _ _ _ hab]
        obtain ⟨t, ht⟩ := collapse_head b rest
        rw [ht]
        rw [List.chain'_cons]
        refine ⟨hab, ?_⟩
        rw [← ht]
        exact ih

theorem collapse_of_chain (l : List Char) (h : noDoubleSlash l) : collapseSlashes l = l := by
  induction l with
  | nil => rfl
  | cons a l2 ih =>
    cases l2 with
    | nil => rfl
    | cons b rest =>
      rw [noDoubleSlash, List.chain'_cons] at h
      rw [collapse_two_neg _ _ _ h.1, ih h.2]

theorem collapse_mem (l : List Char) (x : Char) (h : x ∈ collapseSlashes l) : x ∈ l := by
  induction l with
  | nil => simp [collapseSlashes] at h
  | cons a l2 ih =>
    cases l2 with
    | nil => simpa [collapseSlashes] using h
    | cons b rest =>
      by_cases hab : a = '/' ∧ b = '/'
      · rw [collapse_two_pos _ _ _ hab] at h
        exact List.mem_cons_of_mem a (ih h)
      · rw [collapse_two_neg _ _ _ hab] at h
        rcases List.mem_cons.1 h with rfl | h2
        · exact List.mem_cons_self _ _
        · exact List.mem_cons_of_mem a (ih h2)

theorem WF_strip (r : UrlRec) (h : WF r) :
    WF (UrlRec.mk r.scheme r.host (collapseSlashes r.path) r.query none) := by
  obtain ⟨hs, hh, ⟨⟨t, hpt⟩, hp2⟩, hq⟩ := h
  refine ⟨hs, hh, ⟨?_, ?_⟩, hq⟩
  · rw [hpt]
    obtain ⟨t2, ht2⟩ := collapse_head '/' t
    exact ⟨t2, ht2⟩
  · intro c hc
    exact hp2 c (collapse_mem _ _ hc)

theorem step1_not_slash (url base : List Char) (h : ∀ x, url ≠ '/' :: '/' :: x) :
    step1Protocol url base = some url := by
  unfold step1Protocol
  split
  · exfalso
    rename_i x
    exact h x rfl
  · rfl

theorem step2_of_parse (url1 base : List Char) (r : UrlRec)
    (h : parseListUrl url1 = some r) (hh : hrefList r = url1) :
    step2Absolute url1 base = some url1 := by
  unfold step2Absolute
  split
  · rfl
  · unfold resolveList
    rw [h]
    simp [hh]

theorem step2_of_parse_opq (url1 base : List Char) (o : OpaqueRec)
    (hnone : parseListUrl url1 = none) (h : parseOpaqueUrl url1 = some o)
    (hh : hrefOpaque o = url1) :
    step2Absolute url1 base = some url1 := by
  unfold step2Absolute
  split
  · rfl
  · unfold resolveList
    rw [hnone, h]
    simp [hh]

theorem normalize_shape (u b out : List Char) (h : normalizeUrlList u b = some out) :
    (∃ r, parseListUrl out = some r ∧ r.frag = none ∧ noDoubleSlash r.path ∧ hrefList r = out) ∨
    (∃ o, parseListUrl out = none ∧ parseOpaqueUrl out = some o ∧ o.frag = none ∧
      hrefOpaque o = out) := by
  unfold normalizeUrlList at h
  split at h
  · exact absurd h (by simp)
  · split at h
    · exact absurd h (by simp)
    · split at h
      · next r hparse =>
        injection h with h2
        have wf := parse_WF _ _ hparse
        have wf2 := WF_strip r wf
        left
        refine ⟨UrlRec.mk r.scheme r.host (collapseSlashes r.path) r.query none, ?_, rfl, ?_, h2⟩
        · rw [← h2]
          exact parse_hrefList _ wf2
        · exact collapse_chain r.path
      · split at h
        · next o hoparse =>
          injection h with h2
          have wf := parseOpaque_WF _ _ hoparse
          have wf2 := WFopq_strip o wf
          right
          refine ⟨OpaqueRec.mk o.scheme o.opath o.query none, ?_, ?_, rfl, h2⟩
          · rw [← h2]
            exact parseListUrl_hrefOpaque _ wf2
          · rw [← h2]
            exact parseOpaque_hrefOpaque _ wf2
        · exact absurd h (by simp)

theorem normalize_self (out : List Char) (r : UrlRec) (hparse : parseListUrl out = some r)
    (hfrag : r.frag = none) (hchain : noDoubleSlash r.path) (hout : hrefList r = out)
    (b : List Char) : normalizeUrlList out b = some out := by
  have wf := parse_WF _ _ hparse
  obtain ⟨⟨hs1, hs2⟩, _⟩ := wf
  have hstep1 : step1Protocol out b = some out := by
    apply step1_not_slash
    intro x heq
    cases hsc : r.scheme with
    | nil => exact hs1 hsc
    | cons c cs =>
      have hshape : out = c :: (cs ++ ':' :: '/' :: '/' ::
          (r.host ++ r.path ++ qSer r.query ++ fSer r.frag)) := by
        rw [← hout]
        unfold hrefList
        rw [hsc]
        rfl
      rw [hshape] at heq
      injection heq with h1 _
      subst h1
      have halpha := hs2 '/' (by rw [hsc]; exact List.mem_cons_self _ _)
      exact absurd halpha (by decide)
  have hstep2 : step2Absolute out b = some out := step2_of_parse _ _ _ hparse hout
  simp only [normalizeUrlList, hstep1, hstep2, hparse]
  rw [collapse_of_chain _ hchain, ← hfrag, ← hout]

theorem normalize_self_opq (out : List Char) (o : OpaqueRec)
    (hhier : parseListUrl out = none) (hparse : parseOpaqueUrl out = some o)
    (hfrag : o.frag = none) (hout : hrefOpaque o = out) (b : List Char) :
    normalizeUrlList out b = some out := by
  have wf := parseOpaque_WF _ _ hparse
  obtain ⟨⟨hs1, hs2⟩, _, _, _, _⟩ := wf
  have hstep1 : step1Protocol out b = some out := by
    apply step1_not_slash
    intro x heq
    cases hsc : o.scheme with
    | nil => exact hs1 hsc
    | cons c cs =>
      have hshape : out = c :: (cs ++ ':' :: (o.opath ++ qSer o.query ++ fSer o.frag)) := by
        rw [← hout]
        unfold hrefOpaque
        rw [hsc]
        rfl
      rw [hshape] at heq
      injection heq with h1 _
      subst h1
      have halpha := hs2 '/' (by rw [hsc]; exact List.mem_cons_self _ _)
      exact absurd halpha (by decide)
  have hstep2 : step2Absolute out b = some out := step2_of_parse_opq _ _ _ hhier hparse hout
  simp only [normalizeUrlList, hstep1, hstep2, hhier, hparse]
  rw [← hfrag, ← hout]

theorem normalizeUrl_self (u b0 x : String) (h : normalizeUrl u b0 = some x) (b : String) :
    normalizeUrl x b = some x := by
  unfold normalizeUrl at h ⊢
  cases hn : normalizeUrlList u.data b0.data with
  | none => rw [hn] at h; simp at h
  | some out =>
    rw [hn] at h
    injection h with h2
    have hxdata : x.data = out := by rw [← h2]
    rcases normalize_shape _ _ _ hn with hcase | hcase
    · obtain ⟨r, hparse, hfrag, hchain, hout⟩ := hcase
      rw [hxdata, normalize_self out r hparse hfrag hchain hout b.data]
      simp [h2]
    · obtain ⟨o, hhier, hparse, hfrag, hout⟩ := hcase
      rw [hxdata, normalize_self_opq out o hhier hparse hfrag hout b.data]
      simp [h2]

/-! Sorting: the comparator is total and transitive, insertion keeps
sortedness, and the sort is a permutation. -/

theorem listLe_total (a b : List Char) : listLe a b = true ∨ listLe b a = true := by
  induction a generalizing b with
  | nil => left; rfl
  | cons x xs ih =>
    cases b with
    | nil => right; rfl
    | cons y ys =>
      by_cases hxy : x = y
      · subst hxy
        rcases ih ys with h | h
        · left; simp [listLe, h]
        · right; simp [listLe, h]
      · rcases lt_or_gt_of_ne hxy with hlt | hgt
        · left; simp [listLe, hxy, hlt]
        · right; simp [listLe, Ne.symm hxy, hgt]

theorem listLe_trans (a b c : List Char) (h1 : listLe a b = true) (h2 : listLe b c = true) :
    listLe a c = true := by
  induction a generalizing b c with
  | nil => rfl
  | cons x xs ih =>
    cases b with
    | nil => simp [listLe] at h1
    | cons y ys =>
      cases c with
      | nil => simp [listLe] at h2
      | cons z zs =>
        by_cases hxy : x = y
        · subst hxy
          by_cases hyz : x = z
          · subst hyz
            simp only [listLe, if_pos rfl] at h1 h2 ⊢
            exact ih ys zs h1 h2
          · simp only [listLe, if_neg hyz] at h2 ⊢
            exact h2
        · by_cases hyz : y = z
          · subst hyz
            simp only [listLe, if_neg hxy] at h1 ⊢
            exact h1
          · simp only [listLe, if_neg hxy, if_neg hyz, decide_eq_true_eq] at h1 h2
            have hxz2 : x < z := lt_trans h1 h2
            have hxz : x ≠ z := ne_of_lt hxz2
            simp [listLe, hxz, hxz2]

theorem strLe_total (a b : String) : strLe a b = true ∨ strLe b a = true :=
  listLe_total a.data b.data

theorem strLe_trans (a b c : String) (h1 : strLe a b = true) (h2 : strLe b c = true) :
    strLe a c = true :=
  listLe_trans a.data b.data c.data h1 h2

theorem mem_insertSorted (x z : String) (l : List String) :
    z ∈ insertSorted x l ↔ z = x ∨ z ∈ l := by
  induction l with
  | nil => simp [insertSorted]
  | cons y ys ih =>
    rw [insertSorted]
    by_cases hxy : strLe x y = true
    · rw [if_pos hxy]
      simp [List.mem_cons]
    · rw [if_neg hxy]
      simp only [List.mem_cons, ih]
      tauto

theorem sorted_insertSorted (x : String) (l : List String)
    (hl : l.Pairwise (fun a b => strLe a b = true)) :
    (insertSorted x l).Pairwise (fun a b => strLe a b = true) := by
  induction l with
  | nil => simp [insertSorted]
  | cons y ys ih =>
    rw [insertSorted]
    rcases List.pairwise_cons.1 hl with ⟨hy, hys⟩
    by_cases hxy : strLe x y = true
    · rw [if_pos hxy]
      rw [List.pairwise_cons]
      refine ⟨?_, hl⟩
      intro z hz
      rcases List.mem_cons.1 hz with rfl | hz2
      · exact hxy
      · exact strLe_trans _ _ _ hxy (hy z hz2)
    · rw [if_neg hxy]
      rw [List.pairwise_cons]
      constructor
      · intro z hz
        rcases (mem_insertSorted x z ys).1 hz with rfl | hz2
        · rcases strLe_total z y with h | h
          · exact absurd h hxy
          · exact h
        · exact hy z hz2
      · exact ih hys

theorem perm_insertSorted (x : String) (l : List String) : List.Perm (insertSorted x l) (x :: l) := by
  induction l with
  | nil => exact List.Perm.refl _
  | cons y ys ih =>
    rw [insertSorted]
    by_cases hxy : strLe x y = true
    · rw [if_pos hxy]
    · rw [if_neg hxy]
      exact (ih.cons y).trans (List.Perm.swap x y ys)

theorem sortStrings_sorted (l : List String) :
    (sortStrings l).Pairwise (fun a b => strLe a b = true) := by
  induction l with
  | nil => exact List.Pairwise.nil
  | cons x xs ih => exact sorted_insertSorted x _ ih

theorem sortStrings_perm (l : List String) : List.Perm (sortStrings l) l := by
  induction l with
  | nil => exact List.Perm.refl _
  | cons x xs ih => exact (perm_insertSorted x (sortStrings xs)).trans (ih.cons x)

theorem mem_sortStrings (l : List String) (x : String) : x ∈ sortStrings l ↔ x ∈ l :=
  (sortStrings_perm l).mem_iff

theorem sortStrings_nodup (l : List String) (h : l.Nodup) : (sortStrings l).Nodup :=
  (sortStrings_perm l).nodup_iff.2 h

/-! The collector invariant: the result set is duplicate-free and every
entry is an output of the normaliser. -/

/-- A string in the image of the normaliser. -/
def normOut (x : String) : Prop := ∃ u b, normalizeUrl u b = some x

theorem mem_insertSet (l : List String) (x z : String) :
    z ∈ insertSet l x ↔ z ∈ l ∨ z = x := by
  rw [insertSet]
  by_cases hx : x ∈ l
  · rw [if_pos hx]
    constructor
    · exact Or.inl
    · rintro (h | rfl)
      · exact h
      · exact hx
  · rw [if_neg hx]
    simp

theorem insertSet_nodup (l : List String) (x : String) (h : l.Nodup) :
    (insertSet l x).Nodup := by
  rw [insertSet]
  by_cases hx : x ∈ l
  · rw [if_pos hx]; exact h
  · rw [if_neg hx]
    refine List.Nodup.append h (List.nodup_singleton x) ?_
    intro a ha hb
    rw [List.mem_singleton] at hb
    subst hb
    exact hx ha

theorem insertSet_inv (l : List String) (x : String)
    (hl : l.Nodup ∧ ∀ y ∈ l, normOut y) (hx : normOut x) :
    (insertSet l x).Nodup ∧ ∀ y ∈ insertSet l x, normOut y := by
  refine ⟨insertSet_nodup l x hl.1, ?_⟩
  intro y hy
  rcases (mem_insertSet l x y).1 hy with h | rfl
  · exact hl.2 y h
  · exact hx

theorem addClassified_inv (target : String) (st : CollectorState) (url ct : String)
    (h : st.jsUrls.Nodup ∧ ∀ y ∈ st.jsUrls, normOut y) :
    (addClassified target st url ct).jsUrls.Nodup ∧
    ∀ y ∈ (addClassified target st url ct).jsUrls, normOut y := by
  rw [addClassified]
  split
  · cases hn : normalizeUrl url target with
    | none => exact h
    | some n => exact insertSet_inv _ _ h ⟨url, target, hn⟩
  · exact h

theorem addSwSniff_inv (target : String) (st : CollectorState) (url ct body : String)
    (h : st.jsUrls.Nodup ∧ ∀ y ∈ st.jsUrls, normOut y) :
    (addSwSniff target st url ct body).jsUrls.Nodup ∧
    ∀ y ∈ (addSwSniff target st url ct body).jsUrls, normOut y := by
  rw [addSwSniff]
  split
  · split
    · cases hn : normalizeUrl url target with
      | none => exact h
      | some n => exact insertSet_inv _ _ h ⟨url, target, hn⟩
    · exact h
  · exact h

theorem addClassifiedNorm_inv (target : String) (st : CollectorState) (u : String)
    (h : st.jsUrls.Nodup ∧ ∀ y ∈ st.jsUrls, normOut y) :
    (addClassifiedNorm target st u).jsUrls.Nodup ∧
    ∀ y ∈ (addClassifiedNorm target st u).jsUrls, normOut y := by
  rw [addClassifiedNorm]
  cases hn : normalizeUrl u target with
  | none => exact h
  | some n =>
    dsimp only
    split
    · exact insertSet_inv _ _ h ⟨u, target, hn⟩
    · exact h

theorem addWs_inv (target : String) (st : CollectorState) (u : String)
    (h : st.jsUrls.Nodup ∧ ∀ y ∈ st.jsUrls, normOut y) :
    (addWs target st u).jsUrls.Nodup ∧ ∀ y ∈ (addWs target st u).jsUrls, normOut y := by
  rw [addWs]
  cases hn : normalizeUrl u target with
  | none => exact h
  | some n =>
    dsimp only
    split
    · exact insertSet_inv _ _ h ⟨u, target, hn⟩
    · exact h

theorem addSw_inv (target : String) (st : CollectorState) (u : String)
    (h : st.jsUrls.Nodup ∧ ∀ y ∈ st.jsUrls, normOut y) :
    (addSw target st u).jsUrls.Nodup ∧ ∀ y ∈ (addSw target st u).jsUrls, normOut y := by
  rw [addSw]
  cases hn : normalizeUrl u target with
  | none => exact h
  | some n => exact insertSet_inv _ _ h ⟨u, target, hn⟩

theorem stepEvent_inv (target : String) (st : CollectorState) (ev : JsEvent)
    (h : st.jsUrls.Nodup ∧ ∀ y ∈ st.jsUrls, normOut y) :
    (stepEvent target st ev).jsUrls.Nodup ∧
    ∀ y ∈ (stepEvent target st ev).jsUrls, normOut y := by
  cases ev with
  | response url ct status body =>
    simp only [stepEvent]
    by_cases hs : 400 ≤ status
    · rw [if_pos hs]; exact h
    · rw [if_neg hs]
      exact addSwSniff_inv _ _ _ _ _ (addClassified_inv _ _ _ _ h)
  | wsFrameUrl u => exact addWs_inv _ _ _ h
  | domScript src => exact addClassifiedNorm_inv _ _ _ h
  | dynamicScript src =>
    simp only [stepEvent]
    split
    · exact addClassifiedNorm_inv _ _ _ h
    · exact h
  | preloadLink href => exact addClassifiedNorm_inv _ _ _ h
  | moduleImportSpec spec => exact addClassifiedNorm_inv _ _ _ h
  | swRegisterLiteral u => exact addSw_inv _ _ _ h
  | swVersionUrl u =>
    simp only [stepEvent]
    split
    · exact addSw_inv _ _ _ h
    · exact h

theorem runEvents_inv (target : String) (evs : List JsEvent) :
    (runEvents target evs).jsUrls.Nodup ∧ ∀ y ∈ (runEvents target evs).jsUrls, normOut y := by
  rw [runEvents]
  suffices h : ∀ st : CollectorState, (st.jsUrls.Nodup ∧ ∀ y ∈ st.jsUrls, normOut y) →
      ((evs.foldl (stepEvent target) st).jsUrls.Nodup ∧
        ∀ y ∈ (evs.foldl (stepEvent target) st).jsUrls, normOut y) by
    exact h initState ⟨List.nodup_nil, by intro y hy; simp [initState] at hy⟩
  induction evs with
  | nil => intro st hst; exact hst
  | cons e es ih =>
    intro st hst
    exact ih _ (stepEvent_inv target st e hst)

theorem normOut_inj (x y : String) (hx : normOut x) (hy : normOut y) (hne : x ≠ y)
    (b : String) : normalizeUrl x b ≠ normalizeUrl y b := by
  obtain ⟨u1, b1, h1⟩ := hx
  obtain ⟨u2, b2, h2⟩ := hy
  rw [normalizeUrl_self u1 b1 x h1 b, normalizeUrl_self u2 b2 y h2 b]
  intro hcon
  injection hcon with h3
  exact hne h3

/-! Claim theorems. -/

/-- C1: in every reachable collector state, getResults returns a
lexicographically sorted sequence with no duplicate entries whose members
are exactly the accumulated result set (so a mid-run call simply reports
the set so far, with no error state), and the dedup set never contains two
distinct entries that normalize, via normalizeUrl, to the same canonical
string. -/
theorem c1_results_sorted_dedup_normalized (target : String) (evs : List JsEvent) :
    (getResults (runEvents target evs)).Pairwise (fun a b => strLe a b = true) ∧
    (getResults (runEvents target evs)).Nodup ∧
    (∀ x, x ∈ getResults (runEvents target evs) ↔ x ∈ (runEvents target evs).jsUrls) ∧
    (∀ x y, x ∈ (runEvents target evs).jsUrls → y ∈ (runEvents target evs).jsUrls →
      x ≠ y → ∀ b, normalizeUrl x b ≠ normalizeUrl y b) := by
  obtain ⟨hnd, hno⟩ := runEvents_inv target evs
  refine ⟨sortStrings_sorted _, sortStrings_nodup _ hnd, fun x => mem_sortStrings _ x, ?_⟩
  intro x y hx hy hne b
  exact normOut_inj x y (hno x hx) (hno y hy) hne b

/-- Witness for C1 at a concrete run of two discovery events. -/
theorem c1_witness :
    "https://example.com/app.js" ∈
      (runEvents "https://example.com/"
        [JsEvent.domScript "/app.js", JsEvent.domScript "/vendor.js"]).jsUrls ∧
    "https://example.com/vendor.js" ∈
      (runEvents "https://example.com/"
        [JsEvent.domScript "/app.js", JsEvent.domScript "/vendor.js"]).jsUrls ∧
    normalizeUrl "https://example.com/app.js" "https://base.example/" ≠
      normalizeUrl "https://example.com/vendor.js" "https://base.example/" :=
  ⟨by decide, by decide,
    (c1_results_sorted_dedup_normalized "https://example.com/"
        [JsEvent.domScript "/app.js", JsEvent.domScript "/vendor.js"]).2.2.2
      "https://example.com/app.js" "https://example.com/vendor.js"
      (by decide) (by decide) (by decide) "https://base.example/"⟩

/-- C2: in JSCollector.collect, an error raised by the navigation and
extraction phase whose message contains the Timeout text is swallowed and
the run returns the partial result set accumulated so far; every other
error propagates to the caller; an error-free phase likewise returns the
results. -/
theorem c2_timeout_swallowed_others_propagate (target : String) (evs : List JsEvent)
    (e : JsError) :
    (includesStr e.message "Timeout" = true →
      collectFinish (runEvents target evs) (some e) =
        Except.ok (getResults (runEvents target evs))) ∧
    (includesStr e.message "Timeout" = false →
      collectFinish (runEvents target evs) (some e) = Except.error e) ∧
    collectFinish (runEvents target evs) none =
      Except.ok (getResults (runEvents target evs)) := by
  refine ⟨?_, ?_, rfl⟩
  · intro h
    simp [collectFinish, h]
  · intro h
    simp [collectFinish, h]

/-- Witness for C2: a timeout message is swallowed with partial results, a
non-timeout message propagates, at a concrete partial state. -/
theorem c2_witness :
    includesStr "page.goto: Timeout 30000ms exceeded" "Timeout" = true ∧
    collectFinish (runEvents "https://example.com/" [JsEvent.domScript "/app.js"])
        (some (JsError.mk "page.goto: Timeout 30000ms exceeded")) =
      Except.ok ["https://example.com/app.js"] ∧
    includesStr "net::ERR_CONNECTION_REFUSED" "Timeout" = false ∧
    collectFinish (runEvents "https://example.com/" [JsEvent.domScript "/app.js"])
        (some (JsError.mk "net::ERR_CONNECTION_REFUSED")) =
      Except.error (JsError.mk "net::ERR_CONNECTION_REFUSED") :=
  ⟨by decide,
    ((c2_timeout_swallowed_others_propagate "https://example.com/"
        [JsEvent.domScript "/app.js"]
        (JsError.mk "page.goto: Timeout 30000ms exceeded")).1 (by decide)).trans (by rfl),
    by decide,
    (c2_timeout_swallowed_others_propagate "https://example.com/"
        [JsEvent.domScript "/app.js"]
        (JsError.mk "net::ERR_CONNECTION_REFUSED")).2.1 (by decide)⟩

/-- C5: evaluation of the download loop at the failing input of the
content-dedup bug.  The two URLs serve byte-identical content and sanitise
to the same filename, so the second download overwrites the first file in
place and the dedup branch then unlinks that very path, leaving zero files
with that content on disk, where the claim requires exactly one kept file;
the results array still records the first download, whose file is gone. -/
theorem c5_content_dedup_bug :
    sanitizeFilename "https://a.com/x.js" = sanitizeFilename "https://a.com/sub/x.js" ∧
    (downloadAll ["https://a.com/x.js", "https://a.com/sub/x.js"]
        (fun _ => Except.ok "console.log(1);") "./js-files" true).fsMap = [] ∧
    (downloadAll ["https://a.com/x.js", "https://a.com/sub/x.js"]
        (fun _ => Except.ok "console.log(1);") "./js-files" true).results.length = 1 :=
  ⟨by decide, by decide, by decide⟩

theorem chunkFuel_nil {α : Type} (fuel n : Nat) : chunkFuel fuel n ([] : List α) = [] := by
  cases fuel <;> rfl

theorem chunkFuel_congr {α : Type} (n : Nat) (fuel1 fuel2 : Nat) (l : List α)
    (h1 : l.length ≤ fuel1) (h2 : l.length ≤ fuel2) :
    chunkFuel fuel1 n l = chunkFuel fuel2 n l := by
  induction fuel1 generalizing fuel2 l with
  | zero =>
    have : l = [] := List.length_eq_zero.mp (Nat.le_zero.mp h1)
    subst this
    rw [chunkFuel_nil, chunkFuel_nil]
  | succ f1 ih =>
    cases l with
    | nil => rw [chunkFuel_nil, chunkFuel_nil]
    | cons x xs =>
      cases fuel2 with
      | zero => simp at h2
      | succ f2 =>
        show (x :: xs.take (n - 1)) :: chunkFuel f1 n (xs.drop (n - 1)) =
          (x :: xs.take (n - 1)) :: chunkFuel f2 n (xs.drop (n - 1))
        have hd : (xs.drop (n - 1)).length ≤ xs.length := by
          rw [List.length_drop]
          omega
        have hxs1 : xs.length ≤ f1 := by
          simp at h1
          omega
        have hxs2 : xs.length ≤ f2 := by
          simp at h2
          omega
        rw [ih f2 (xs.drop (n - 1)) (le_trans hd hxs1) (le_trans hd hxs2)]

theorem chunkList_cons {α : Type} (n : Nat) (x : α) (xs : List α) :
    chunkList n (x :: xs) = (x :: xs.take (n - 1)) :: chunkList n (xs.drop (n - 1)) := by
  show chunkFuel (xs.length + 1) n (x :: xs) = _
  show (x :: xs.take (n - 1)) :: chunkFuel xs.length n (xs.drop (n - 1)) = _
  rw [chunkFuel_congr n xs.length (xs.drop (n - 1)).length (xs.drop (n - 1))
    (by rw [List.length_drop]; omega) (le_refl _)]
  rfl

theorem chunkList_flatten {α : Type} (n : Nat) (_hn : 1 ≤ n) (l : List α) :
    (chunkList n l).flatten = l := by
  have hgen : ∀ (fuel : Nat) (l2 : List α), l2.length ≤ fuel →
      (chunkFuel fuel n l2).flatten = l2 := by
    intro fuel
    induction fuel with
    | zero =>
      intro l2 hl
      have : l2 = [] := List.length_eq_zero.mp (Nat.le_zero.mp hl)
      subst this
      rfl
    | succ f ih =>
      intro l2 hl
      cases l2 with
      | nil => rfl
      | cons x xs =>
        show ((x :: xs.take (n - 1)) :: chunkFuel f n (xs.drop (n - 1))).flatten = x :: xs
        rw [List.flatten_cons, ih (xs.drop (n - 1)) (by rw [List.length_drop]; simp at hl; omega)]
        rw [List.cons_append, List.take_append_drop]
  exact hgen l.length l (le_refl _)

theorem chunkList_batch_bounds {α : Type} (n : Nat) (hn : 1 ≤ n) (l : List α) :
    ∀ b ∈ chunkList n l, b.length ≤ n ∧ b ≠ [] := by
  have hgen : ∀ (fuel : Nat) (l2 : List α), l2.length ≤ fuel →
      ∀ b ∈ chunkFuel fuel n l2, b.length ≤ n ∧ b ≠ [] := by
    intro fuel
    induction fuel with
    | zero =>
      intro l2 hl b hb
      have : l2 = [] := List.length_eq_zero.mp (Nat.le_zero.mp hl)
      subst this
      simp [chunkFuel_nil] at hb
    | succ f ih =>
      intro l2 hl b hb
      cases l2 with
      | nil => simp [chunkFuel_nil] at hb
      | cons x xs =>
        have hb2 : b ∈ (x :: xs.take (n - 1)) :: chunkFuel f n (xs.drop (n - 1)) := hb
        rcases List.mem_cons.1 hb2 with rfl | hb3
        · constructor
          · have : (xs.take (n - 1)).length ≤ n - 1 := by
              rw [List.length_take]
              omega
            simp only [List.length_cons]
            omega
          · simp
        · exact ih (xs.drop (n - 1)) (by rw [List.length_drop]; simp at hl; omega) b hb3
  exact hgen l.length l (le_refl _)

theorem chunkList_full_batches {α : Type} (n : Nat) (hn : 1 ≤ n) (l : List α) :
    ∀ pre b suf, chunkList n l = pre ++ b :: suf → suf ≠ [] → b.length = n := by
  have hgen : ∀ (fuel : Nat) (l2 : List α), l2.length ≤ fuel →
      ∀ pre b suf, chunkFuel fuel n l2 = pre ++ b :: suf → suf ≠ [] → b.length = n := by
    intro fuel
    induction fuel with
    | zero =>
      intro l2 hl pre b suf heq _
      have : l2 = [] := List.length_eq_zero.mp (Nat.le_zero.mp hl)
      subst this
      rw [chunkFuel_nil] at heq
      exact absurd heq.symm (List.append_ne_nil_of_right_ne_nil pre (by simp))
    | succ f ih =>
      intro l2 hl pre b suf heq hsuf
      cases l2 with
      | nil =>
        rw [chunkFuel_nil] at heq
        exact absurd heq.symm (List.append_ne_nil_of_right_ne_nil pre (by simp))
      | cons x xs =>
        have heq2 : (x :: xs.take (n - 1)) :: chunkFuel f n (xs.drop (n - 1)) =
            pre ++ b :: suf := heq
        have hxs : xs.length ≤ f := by
          simp at hl
          omega
        cases pre with
        | nil =>
          simp only [List.nil_append] at heq2
          injection heq2 with hb hrest
          have hdrop : xs.drop (n - 1) ≠ [] := by
            intro hd
            rw [← hrest, hd, chunkFuel_nil] at hsuf
            exact hsuf rfl
          have hlen : n - 1 < xs.length := by
            by_contra hcon
            push_neg at hcon
            exact hdrop (List.drop_eq_nil_of_le hcon)
          rw [← hb]
          simp only [List.length_cons, List.length_take]
          omega
        | cons p pre2 =>
          simp only [List.cons_append] at heq2
          injection heq2 with _ hrest
          exact ih (xs.drop (n - 1)) (le_trans (by rw [List.length_drop]; omega) hxs)
            pre2 b suf hrest hsuf
  exact hgen l.length l (le_refl _)

theorem count_launch_map_zero (batches : List (List String)) :
    (batches.map OrchStep.runBatch).count OrchStep.launch = 0 := by
  rw [List.count_eq_zero]
  intro hmem
  rw [List.mem_map] at hmem
  obtain ⟨b, _, heq⟩ := hmem
  simp at heq

theorem count_close_map_zero (batches : List (List String)) :
    (batches.map OrchStep.runBatch).count OrchStep.closeBrowser = 0 := by
  rw [List.count_eq_zero]
  intro hmem
  rw [List.mem_map] at hmem
  obtain ⟨b, _, heq⟩ := hmem
  simp at heq

/-- C9: the orchestrator partitions the validated targets into consecutive
batches of size threads (every batch nonempty and at most threads wide,
every batch but the last exactly threads wide, their concatenation the
original order), five targets at concurrency two run as batches of sizes
two, two and one, and the orchestration trace launches one shared browser
first, runs the batches in order, and closes the browser exactly once, at
the end, regardless of per-target outcomes. -/
theorem c9_batching (urls : List String) (threads : Nat) (hn : 1 ≤ threads) :
    ((chunkList threads urls).flatten = urls) ∧
    (∀ b ∈ chunkList threads urls, b.length ≤ threads ∧ b ≠ []) ∧
    (∀ pre b suf, chunkList threads urls = pre ++ b :: suf → suf ≠ [] → b.length = threads) ∧
    (orchTrace urls threads).count OrchStep.launch = 1 ∧
    (orchTrace urls threads).count OrchStep.closeBrowser = 1 ∧
    (orchTrace urls threads).getLast? = some OrchStep.closeBrowser ∧
    (orchTrace urls threads).head? = some OrchStep.launch ∧
    chunkList 2 (["https://t1/", "https://t2/", "https://t3/", "https://t4/", "https://t5/"] :
        List String) =
      [["https://t1/", "https://t2/"], ["https://t3/", "https://t4/"], ["https://t5/"]] := by
  refine ⟨chunkList_flatten threads hn urls, chunkList_batch_bounds threads hn urls,
    chunkList_full_batches threads hn urls, ?_, ?_, ?_, rfl, by decide⟩
  · show (OrchStep.launch ::
      ((chunkList threads urls).map OrchStep.runBatch ++ [OrchStep.closeBrowser])).count
        OrchStep.launch = 1
    rw [List.count_cons_self, List.count_append, count_launch_map_zero]
    rfl
  · show (OrchStep.launch ::
      ((chunkList threads urls).map OrchStep.runBatch ++ [OrchStep.closeBrowser])).count
        OrchStep.closeBrowser = 1
    rw [List.count_cons_of_ne (by simp), List.count_append, count_close_map_zero]
    rfl
  · show ((OrchStep.launch :: (chunkList threads urls).map OrchStep.runBatch) ++
      [OrchStep.closeBrowser]).getLast? = some OrchStep.closeBrowser
    rw [List.getLast?_concat]

/-- Witness for C9 at three targets and concurrency two. -/
theorem c9_witness :
    (1 : Nat) ≤ 2 ∧
    (chunkList 2 (["https://a/", "https://b/", "https://c/"] : List String)).flatten =
      ["https://a/", "https://b/", "https://c/"] :=
  ⟨by decide, (c9_batching ["https://a/", "https://b/", "https://c/"] 2 (by decide)).1⟩

theorem mapSet_fresh (m : List (String × List String)) (k : String) (v : List String)
    (h : ∀ p ∈ m, p.1 ≠ k) : mapSet m k v = m ++ [(k, v)] := by
  unfold mapSet
  rw [if_neg]
  intro hany
  obtain ⟨p, hp, heq⟩ := List.any_eq_true.mp hany
  exact h p hp (eq_of_beq heq)

theorem flatten_map_map {α β : Type} (f : α → β) (L : List (List α)) :
    (L.map (fun b => b.map f)).flatten = L.flatten.map f := by
  induction L with
  | nil => rfl
  | cons a L2 ih =>
    rw [List.map_cons, List.flatten_cons, List.flatten_cons, List.map_append, ih]

theorem fold_agg (outcome : String → Except String (List String)) (us : List String) :
    ∀ m0 : List (String × List String), us.Nodup → (∀ u ∈ us, ∀ p ∈ m0, p.1 ≠ u) →
    (us.map (runTarget outcome)).foldl
      (fun m r => if 0 < r.jsUrls.length then mapSet m r.url r.jsUrls else m) m0 =
    m0 ++ us.filterMap (fun u =>
      match outcome u with
      | Except.ok js => if 0 < js.length then some (u, js) else none
      | Except.error _ => none) := by
  induction us with
  | nil =>
    intro m0 _ _
    simp
  | cons u us2 ih =>
    intro m0 hnd hfresh
    rw [List.map_cons, List.foldl_cons]
    have hnd2 : us2.Nodup := (List.nodup_cons.1 hnd).2
    have hunotin : u ∉ us2 := (List.nodup_cons.1 hnd).1
    cases ho : outcome u with
    | ok js =>
      have hrt : runTarget outcome u = TargetResult.mk u js none := by
        unfold runTarget
        rw [ho]
      rw [hrt]
      by_cases hlen : 0 < js.length
      · rw [if_pos hlen]
        rw [mapSet_fresh m0 u js (hfresh u (by simp))]
        have hfresh2 : ∀ w ∈ us2, ∀ p ∈ m0 ++ [(u, js)], p.1 ≠ w := by
          intro w hw p hp
          rcases List.mem_append.1 hp with hp2 | hp2
          · exact hfresh w (by simp [hw]) p hp2
          · rw [List.mem_singleton] at hp2
            subst hp2
            intro hcon
            have hq : u = w := hcon
            exact hunotin (by rw [hq]; exact hw)
        rw [ih (m0 ++ [(u, js)]) hnd2 hfresh2]
        rw [List.filterMap_cons]
        simp only [ho, if_pos hlen]
        rw [List.append_assoc]
        rfl
      · rw [if_neg hlen]
        rw [ih m0 hnd2 (fun w hw p hp => hfresh w (by simp [hw]) p hp)]
        rw [List.filterMap_cons]
        simp only [ho, if_neg hlen]
    | error e =>
      have hrt : runTarget outcome u = TargetResult.mk u [] (some e) := by
        unfold runTarget
        rw [ho]
      rw [hrt]
      have : ¬ (0 < (TargetResult.mk u [] (some e)).jsUrls.length) := by simp
      rw [if_neg this]
      rw [ih m0 hnd2 (fun w hw p hp => hfresh w (by simp [hw]) p hp)]
      rw [List.filterMap_cons]
      simp only [ho]

theorem collectMultipleJS_eq (urls : List String) (threads : Nat)
    (outcome : String → Except String (List String)) (hn : 1 ≤ threads) (hnd : urls.Nodup) :
    collectMultipleJS urls threads outcome =
      urls.filterMap (fun u =>
        match outcome u with
        | Except.ok js => if 0 < js.length then some (u, js) else none
        | Except.error _ => none) := by
  simp only [collectMultipleJS]
  rw [show ((chunkList threads urls).map (fun b => b.map (runTarget outcome))).flatten =
      ((chunkList threads urls).flatten).map (runTarget outcome) from
    flatten_map_map (runTarget outcome) (chunkList threads urls)]
  rw [chunkList_flatten threads hn urls]
  rw [fold_agg outcome urls [] hnd (by intro u _ p hp; simp at hp)]
  rw [List.nil_append]

/-- C6 counterexample: a target whose collector run fails is caught (its
batch result carries an empty URL list and the error message), but it is
not recorded in the aggregate result map at all - the map is empty, with
no empty-result entry for the target, refuting the wording that the
failure is recorded as an empty result in the aggregate result map. -/
theorem c6_counterexample :
    collectMultipleJS ["https://a.com/"] 3 (fun _ => Except.error "net::ERR_FAILED") = [] ∧
    runTarget (fun _ => Except.error "net::ERR_FAILED") "https://a.com/" =
      TargetResult.mk "https://a.com/" [] (some "net::ERR_FAILED") :=
  ⟨by decide, by decide⟩

/-- C6 (amended): in multi-target orchestration a single target's failure
is caught and turned into an empty batch result, so the run always
completes, and the aggregate result map is exactly the per-target
filter-map of the outcomes: each target's entry depends only on its own
outcome (failures never abort sibling targets in the same batch or
subsequent batches), a failed target is omitted from the map rather than
recorded with an empty list, and so is a successful target with no URLs. -/
theorem c6_failure_isolated_amended (urls : List String) (threads : Nat)
    (outcome : String → Except String (List String)) (hn : 1 ≤ threads) (hnd : urls.Nodup) :
    (collectMultipleJS urls threads outcome =
      urls.filterMap (fun u =>
        match outcome u with
        | Except.ok js => if 0 < js.length then some (u, js) else none
        | Except.error _ => none)) ∧
    (∀ u e, outcome u = Except.error e →
      ∀ v, (u, v) ∉ collectMultipleJS urls threads outcome) ∧
    (∀ u js, u ∈ urls → outcome u = Except.ok js → 0 < js.length →
      (u, js) ∈ collectMultipleJS urls threads outcome) := by
  have hmain := collectMultipleJS_eq urls threads outcome hn hnd
  refine ⟨hmain, ?_, ?_⟩
  · intro u e he v hmem
    rw [hmain] at hmem
    rw [List.mem_filterMap] at hmem
    obtain ⟨w, _, hw⟩ := hmem
    cases how : outcome w with
    | ok js =>
      rw [how] at hw
      dsimp only at hw
      by_cases hlen : 0 < js.length
      · rw [if_pos hlen] at hw
        injection hw with hw2
        have : w = u := congrArg Prod.fst hw2
        rw [this, he] at how
        exact Except.noConfusion how
      · rw [if_neg hlen] at hw
        exact Option.noConfusion hw
    | error e2 =>
      rw [how] at hw
      exact Option.noConfusion hw
  · intro u js hu ho hlen
    rw [hmain, List.mem_filterMap]
    refine ⟨u, hu, ?_⟩
    rw [ho]
    dsimp only
    rw [if_pos hlen]

/-- Witness for C6: two targets, the first failing, the second succeeding;
the run completes with exactly the successful target's entry. -/
theorem c6_witness :
    (1 : Nat) ≤ 2 ∧ (["https://a.com/", "https://b.com/"] : List String).Nodup ∧
    ("https://b.com/", ["https://b.com/x.js"]) ∈
      collectMultipleJS ["https://a.com/", "https://b.com/"] 2
        (fun u => if u == "https://a.com/" then Except.error "boom"
                  else Except.ok ["https://b.com/x.js"]) :=
  ⟨by decide, by decide,
    (c6_failure_isolated_amended ["https://a.com/", "https://b.com/"] 2
        (fun u => if u == "https://a.com/" then Except.error "boom"
                  else Except.ok ["https://b.com/x.js"]) (by decide) (by decide)).2.2
      "https://b.com/" ["https://b.com/x.js"] (by decide) (by rfl) (by decide)⟩

theorem mem_foldl_insertSet (l : List String) :
    ∀ (acc : List String) (x : String), x ∈ l.foldl insertSet acc ↔ x ∈ acc ∨ x ∈ l := by
  induction l with
  | nil =>
    intro acc x
    simp
  | cons a t ih =>
    intro acc x
    rw [List.foldl_cons, ih, mem_insertSet]
    simp only [List.mem_cons]
    tauto

theorem nodup_foldl_insertSet (l : List String) :
    ∀ acc : List String, acc.Nodup → (l.foldl insertSet acc).Nodup := by
  induction l with
  | nil =>
    intro acc h
    exact h
  | cons a t ih =>
    intro acc h
    rw [List.foldl_cons]
    exact ih _ (insertSet_nodup acc a h)

theorem dedupKeepFirst_mem (l : List String) (x : String) :
    x ∈ dedupKeepFirst l ↔ x ∈ l := by
  rw [dedupKeepFirst, mem_foldl_insertSet]
  simp

theorem dedupKeepFirst_nodup (l : List String) : (dedupKeepFirst l).Nodup :=
  nodup_foldl_insertSet l [] List.nodup_nil

theorem mem_combinedUrls (allResults : List (String × List String)) (fd ed : List String)
    (x : String) :
    x ∈ combinedUrls allResults fd ed ↔ ∃ p ∈ allResults, x ∈ filterUrls p.2 fd ed := by
  unfold combinedUrls
  rw [List.mem_flatten]
  constructor
  · rintro ⟨l, hl, hx⟩
    rw [List.mem_map] at hl
    obtain ⟨p, hp, rfl⟩ := hl
    exact ⟨p, hp, hx⟩
  · rintro ⟨p, hp, hx⟩
    exact ⟨filterUrls p.2 fd ed, List.mem_map.2 ⟨p, hp, rfl⟩, hx⟩

/-- C7 counterexample: the combined output file of a non-resume
multi-target run keeps first-occurrence order, not sorted order - with the
first target contributing a lexicographically later URL, the written
content differs from the sorted rendering the claim requires. -/
theorem c7_counterexample :
    combinedFileContent
        [("https://t1/", ["https://b.com/x.js"]), ("https://t2/", ["https://a.com/y.js"])]
        [] [] false "" = "https://b.com/x.js\nhttps://a.com/y.js\n" ∧
    String.mk (joinNlList ((sortStrings (dedupKeepFirst (combinedUrls
        [("https://t1/", ["https://b.com/x.js"]), ("https://t2/", ["https://a.com/y.js"])]
        [] []))).map String.data) ++ ['\n']) = "https://a.com/y.js\nhttps://b.com/x.js\n" ∧
    ("https://b.com/x.js\nhttps://a.com/y.js\n" : String) ≠
      "https://a.com/y.js\nhttps://b.com/x.js\n" :=
  ⟨by decide, by decide, by decide⟩

/-- C7 (amended): the combined output destination of a non-resume
multi-target run contains exactly the deduplicated union of all targets'
filtered URL sequences, in first-occurrence order rather than sorted; the
sorted deduplicated union is produced only on the default stdout path. -/
theorem c7_combined_output_amended (allResults : List (String × List String))
    (fd ed : List String) (prior : String) :
    (combinedFileContent allResults fd ed false prior =
      String.mk (joinNlList ((dedupKeepFirst (combinedUrls allResults fd ed)).map
        String.data) ++ ['\n'])) ∧
    (dedupKeepFirst (combinedUrls allResults fd ed)).Nodup ∧
    (∀ x, x ∈ dedupKeepFirst (combinedUrls allResults fd ed) ↔
      ∃ p ∈ allResults, x ∈ filterUrls p.2 fd ed) ∧
    (stdoutCombined allResults fd ed).Pairwise (fun a b => strLe a b = true) ∧
    (∀ x, x ∈ stdoutCombined allResults fd ed ↔
      ∃ p ∈ allResults, x ∈ filterUrls p.2 fd ed) := by
  refine ⟨rfl, dedupKeepFirst_nodup _, ?_, sortStrings_sorted _, ?_⟩
  · intro x
    rw [dedupKeepFirst_mem, mem_combinedUrls]
  · intro x
    rw [stdoutCombined, mem_sortStrings, dedupKeepFirst_mem, mem_combinedUrls]

theorem addSw_mem (target : String) (st : CollectorState) (u n : String)
    (h : normalizeUrl u target = some n) :
    n ∈ (addSw target st u).jsUrls ∧ n ∈ (addSw target st u).swScripts := by
  simp only [addSw, h]
  exact ⟨(mem_insertSet _ _ _).2 (Or.inr rfl), (mem_insertSet _ _ _).2 (Or.inr rfl)⟩

theorem addClassifiedNorm_new (target : String) (st : CollectorState) (u x : String)
    (hmem : x ∈ (addClassifiedNorm target st u).jsUrls) (hnew : x ∉ st.jsUrls) :
    isJavaScriptUrl x "" = true := by
  rw [addClassifiedNorm] at hmem
  cases hn : normalizeUrl u target with
  | none =>
    rw [hn] at hmem
    exact absurd hmem hnew
  | some n =>
    rw [hn] at hmem
    dsimp only at hmem
    by_cases hc : isJavaScriptUrl n "" = true
    · rw [if_pos hc] at hmem
      rcases (mem_insertSet _ _ _).1 hmem with h2 | rfl
      · exact absurd h2 hnew
      · exact hc
    · rw [if_neg hc] at hmem
      exact absurd hmem hnew

theorem addWs_new (target : String) (st : CollectorState) (u x : String)
    (hmem : x ∈ (addWs target st u).jsUrls) (hnew : x ∉ st.jsUrls) :
    isJavaScriptUrl x "" = true := by
  rw [addWs] at hmem
  cases hn : normalizeUrl u target with
  | none =>
    rw [hn] at hmem
    exact absurd hmem hnew
  | some n =>
    rw [hn] at hmem
    dsimp only at hmem
    by_cases hc : isJavaScriptUrl n "" = true
    · rw [if_pos hc] at hmem
      rcases (mem_insertSet _ _ _).1 hmem with h2 | rfl
      · exact absurd h2 hnew
      · exact hc
    · rw [if_neg hc] at hmem
      exact absurd hmem hnew

theorem addClassified_new (target : String) (st : CollectorState) (url ct x : String)
    (hmem : x ∈ (addClassified target st url ct).jsUrls) (hnew : x ∉ st.jsUrls) :
    isJavaScriptUrl url ct = true := by
  rw [addClassified] at hmem
  by_cases hc : isJavaScriptUrl url ct = true
  · exact hc
  · rw [if_neg hc] at hmem
    exact absurd hmem hnew

theorem addSwSniff_new (target : String) (st : CollectorState) (url ct body x : String)
    (hmem : x ∈ (addSwSniff target st url ct body).jsUrls) :
    x ∈ st.jsUrls ∨ x ∈ (addSwSniff target st url ct body).swScripts := by
  rw [addSwSniff] at hmem ⊢
  by_cases h1 : (includesStr url "service-worker" || includesStr url "sw.js" ||
      includesStr ct "javascript") = true
  · rw [if_pos h1] at hmem ⊢
    by_cases h2 : (includesStr body "self.addEventListener" ||
        includesStr body "ServiceWorkerGlobalScope") = true
    · rw [if_pos h2] at hmem ⊢
      cases hn : normalizeUrl url target with
      | none =>
        rw [hn] at hmem
        exact Or.inl hmem
      | some n =>
        rw [hn] at hmem
        dsimp only at hmem ⊢
        rcases (mem_insertSet _ _ _).1 hmem with h3 | rfl
        · exact Or.inl h3
        · exact Or.inr ((mem_insertSet _ _ _).2 (Or.inr rfl))
    · rw [if_neg h2] at hmem ⊢
      exact Or.inl hmem
  · rw [if_neg h1] at hmem ⊢
    exact Or.inl hmem

theorem addClassified_jsUrls_sub (target : String) (st : CollectorState) (url ct x : String)
    (hmem : x ∈ st.jsUrls) : x ∈ (addClassified target st url ct).jsUrls := by
  rw [addClassified]
  by_cases hc : isJavaScriptUrl url ct = true
  · rw [if_pos hc]
    cases hn : normalizeUrl url target with
    | none => exact hmem
    | some n =>
      dsimp only
      exact (mem_insertSet _ _ _).2 (Or.inl hmem)
  · rw [if_neg hc]
    exact hmem

/-- C10: service-worker script URLs discovered by extractServiceWorkers,
whether captured from a register-call literal or enumerated via the
control protocol, are inserted into the result set after normalisation
alone, with no classifier test; by contrast, a URL newly inserted by the
DOM, dynamic-creation, preload, inline-module or WebSocket handlers always
passes the classifier, and a URL newly inserted by the network response
handler either passed the classifier on its raw URL and content type or
was tagged into the service-worker set by the response-body sniff.
Consequently the final result set can contain URLs the classifier rejects:
the concrete run below inserts a service-worker URL that the classifier
maps to false. -/
theorem c10_service_worker_bypass :
    (∀ target st u n, normalizeUrl u target = some n →
      n ∈ (stepEvent target st (JsEvent.swRegisterLiteral u)).jsUrls ∧
      n ∈ (stepEvent target st (JsEvent.swRegisterLiteral u)).swScripts ∧
      (u ≠ "" → n ∈ (stepEvent target st (JsEvent.swVersionUrl u)).jsUrls)) ∧
    (∀ target st x s, x ∈ (stepEvent target st (JsEvent.domScript s)).jsUrls →
      x ∉ st.jsUrls → isJavaScriptUrl x "" = true) ∧
    (∀ target st x s, x ∈ (stepEvent target st (JsEvent.dynamicScript s)).jsUrls →
      x ∉ st.jsUrls → isJavaScriptUrl x "" = true) ∧
    (∀ target st x s, x ∈ (stepEvent target st (JsEvent.preloadLink s)).jsUrls →
      x ∉ st.jsUrls → isJavaScriptUrl x "" = true) ∧
    (∀ target st x s, x ∈ (stepEvent target st (JsEvent.moduleImportSpec s)).jsUrls →
      x ∉ st.jsUrls → isJavaScriptUrl x "" = true) ∧
    (∀ target st x s, x ∈ (stepEvent target st (JsEvent.wsFrameUrl s)).jsUrls →
      x ∉ st.jsUrls → isJavaScriptUrl x "" = true) ∧
    (∀ target st x url ct status body,
      x ∈ (stepEvent target st (JsEvent.response url ct status body)).jsUrls →
      x ∉ st.jsUrls →
      isJavaScriptUrl url ct = true ∨
        x ∈ (stepEvent target st (JsEvent.response url ct status body)).swScripts) ∧
    ("https://example.com/sw-worker" ∈
        (runEvents "https://example.com/" [JsEvent.swRegisterLiteral "/sw-worker"]).jsUrls ∧
      isJavaScriptUrl "https://example.com/sw-worker" "" = false) := by
  refine ⟨?_, ?_, ?_, ?_, ?_, ?_, ?_, by decide, by decide⟩
  · intro target st u n hn
    refine ⟨(addSw_mem target st u n hn).1, (addSw_mem target st u n hn).2, ?_⟩
    intro hne
    have hbne : (u != "") = true := by simp [hne]
    simp only [stepEvent, hbne, if_true]
    exact (addSw_mem target st u n hn).1
  · intro target st x s hmem hnew
    exact addClassifiedNorm_new target st s x hmem hnew
  · intro target st x s hmem hnew
    simp only [stepEvent] at hmem
    by_cases hb : (s != "") = true
    · rw [if_pos hb] at hmem
      exact addClassifiedNorm_new target st s x hmem hnew
    · rw [if_neg hb] at hmem
      exact absurd hmem hnew
  · intro target st x s hmem hnew
    exact addClassifiedNorm_new target st s x hmem hnew
  · intro target st x s hmem hnew
    exact addClassifiedNorm_new target st s x hmem hnew
  · intro target st x s hmem hnew
    exact addWs_new target st s x hmem hnew
  · intro target st x url ct status body hmem hnew
    simp only [stepEvent] at hmem ⊢
    by_cases hs : 400 ≤ status
    · rw [if_pos hs] at hmem
      exact absurd hmem hnew
    · rw [if_neg hs] at hmem ⊢
      rcases addSwSniff_new target (addClassified target st url ct) url ct body x hmem with
        h2 | h2
      · exact Or.inl (addClassified_new target st url ct x h2 hnew)
      · exact Or.inr h2

/-- Witness for C10: the register-literal path inserts the normalised
service-worker URL into a concrete state. -/
theorem c10_witness :
    normalizeUrl "/sw-worker" "https://example.com/" = some "https://example.com/sw-worker" ∧
    "https://example.com/sw-worker" ∈
      (stepEvent "https://example.com/" initState
        (JsEvent.swRegisterLiteral "/sw-worker")).jsUrls :=
  ⟨by decide,
    (c10_service_worker_bypass.1 "https://example.com/" initState "/sw-worker"
      "https://example.com/sw-worker" (by decide)).1⟩

/-- C8 counterexample: normalizeUrl maps an ftp URL to itself, an absolute
URL that is not an http or https URL, refuting the claim that every
non-null result is an http or https URL. -/
theorem c8_counterexample :
    normalizeUrl "ftp://example.com/a" "https://base.example/" = some "ftp://example.com/a" ∧
    httpSchemeUrl "ftp://example.com/a" = false := by
  exact ⟨by decide, by decide⟩

/-- C8 (amended): for all inputs, normalizeUrl returns none or a string
that parses as a fragment-free absolute URL: either a hierarchical URL (of
any scheme, not only http or https) with no doubled separator in its path,
or an opaque-path URL (data:, mailto:) whose opaque path is kept verbatim
- doubled separators included - because the platform pathname setter is a
no-op on opaque paths; the function is total, modelling that it never
throws past its boundary.  The closed conjuncts pin the opaque case down:
a data: URL carrying a doubled slash and a fragment comes back with the
fragment stripped and the doubled slash still in place. -/
theorem c8_normalize_total_amended (s b : String) :
    (normalizeUrl s b = none ∨
      ∃ out, normalizeUrl s b = some out ∧
        ((∃ r, parseListUrl out.data = some r ∧ r.frag = none ∧ noDoubleSlash r.path) ∨
         (∃ o, parseOpaqueUrl out.data = some o ∧ o.frag = none))) ∧
    normalizeUrl "data:text/plain,a//b#frag" "https://base.example/" =
      some "data:text/plain,a//b" ∧
    includesStr "data:text/plain,a//b" "//" = true := by
  refine ⟨?_, by decide, by decide⟩
  cases hn : normalizeUrlList s.data b.data with
  | none =>
    left
    unfold normalizeUrl
    rw [hn]
    rfl
  | some out =>
    right
    have hsome : normalizeUrl s b = some (String.mk out) := by
      unfold normalizeUrl
      rw [hn]
      rfl
    rcases normalize_shape _ _ _ hn with hcase | hcase
    · obtain ⟨r, hparse, hfrag, hchain, _⟩ := hcase
      exact ⟨String.mk out, hsome, Or.inl ⟨r, hparse, hfrag, hchain⟩⟩
    · obtain ⟨o, _, hparse, hfrag, _⟩ := hcase
      exact ⟨String.mk out, hsome, Or.inr ⟨o, hparse, hfrag⟩⟩

theorem domainPred_iff (fd ed : List String) (u : String) :
    domainPred fd ed u = true ↔
    ∃ h, urlHostname u = some h ∧
      (fd = [] ∨ ∃ p ∈ fd, matchDomainPattern h p = true) ∧
      (∀ p ∈ ed, matchDomainPattern h p = false) := by
  unfold domainPred
  cases hh : urlHostname u with
  | none => simp
  | some h =>
    have hinj : ∀ h2, (some h = some h2) ↔ h = h2 := by intro h2; simp
    dsimp only
    split_ifs with h1 h2
    · rw [Bool.and_eq_true] at h1
      obtain ⟨h1a, h1b⟩ := h1
      constructor
      · intro hfalse
        simp at hfalse
      · rintro ⟨h2, hh2, hfd, _⟩
        rw [hinj] at hh2
        subst hh2
        exfalso
        rcases hfd with rfl | ⟨p, hp, hmatch⟩
        · simp at h1a
        · have : fd.any (fun p => matchDomainPattern h p) = true :=
            List.any_eq_true.mpr ⟨p, hp, hmatch⟩
          rw [this] at h1b
          simp at h1b
    · rw [Bool.and_eq_true] at h2
      obtain ⟨h2a, h2b⟩ := h2
      constructor
      · intro hfalse
        simp at hfalse
      · rintro ⟨h3, hh3, _, hed⟩
        rw [hinj] at hh3
        subst hh3
        obtain ⟨p, hp, hmatch⟩ := List.any_eq_true.mp h2b
        rw [hed p hp] at hmatch
        simp at hmatch
    · constructor
      · intro _
        refine ⟨h, rfl, ?_, ?_⟩
        · by_cases hfd : fd.isEmpty = true
          · exact Or.inl (List.isEmpty_iff.mp hfd)
          · right
            have hfd2 : fd.isEmpty = false := by
              cases hy : fd.isEmpty
              · rfl
              · exact absurd hy hfd
            have hany : (fd.any fun p => matchDomainPattern h p) = true := by
              cases hy : fd.any fun p => matchDomainPattern h p
              · exfalso
                apply h1
                rw [hfd2, hy]
                rfl
              · rfl
            obtain ⟨p, hp, hm⟩ := List.any_eq_true.mp hany
            exact ⟨p, hp, hm⟩
        · intro p hp
          cases hm : matchDomainPattern h p with
          | false => rfl
          | true =>
            exfalso
            apply h2
            have hne : ed.isEmpty = false := by
              cases hy : ed.isEmpty with
              | false => rfl
              | true =>
                rw [List.isEmpty_iff] at hy
                subst hy
                simp at hp
            have hany : (ed.any fun q => matchDomainPattern h q) = true :=
              List.any_eq_true.mpr ⟨p, hp, hm⟩
            rw [hne, hany]
            rfl
      · intro _
        rfl

theorem mem_filterUrls (urls fd ed : List String) (u : String) :
    u ∈ filterUrls urls fd ed ↔
    (u ∈ urls ∧ ((fd.isEmpty && ed.isEmpty) = true ∨ domainPred fd ed u = true)) := by
  unfold filterUrls
  split_ifs with hcond
  · simp [hcond]
  · rw [List.mem_filter]
    constructor
    · rintro ⟨h1, h2⟩
      exact ⟨h1, Or.inr h2⟩
    · rintro ⟨h1, hcond2 | h2⟩
      · exact absurd hcond2 hcond
      · exact ⟨h1, h2⟩

/-- C3: the domain filter with no patterns is the identity; a surviving
URL is always one of the inputs; when patterns are present a URL survives
only if its hostname parses, no deny pattern matches it, and, whenever an
allow list is present, some allow pattern matches it; and a URL whose
hostname matches any deny pattern never survives, regardless of allow
matches.  Matching is the case-insensitive anchored glob of
matchDomainPattern, applied to the hostname only. -/
theorem c3_domain_filter (urls fd ed : List String) (u : String) :
    (filterUrls urls [] [] = urls) ∧
    (u ∈ filterUrls urls fd ed → u ∈ urls) ∧
    ((fd ≠ [] ∨ ed ≠ []) → u ∈ filterUrls urls fd ed →
      ∃ h, urlHostname u = some h ∧
        (∀ p ∈ ed, matchDomainPattern h p = false) ∧
        (fd ≠ [] → ∃ p ∈ fd, matchDomainPattern h p = true)) ∧
    (∀ h p, urlHostname u = some h → p ∈ ed → matchDomainPattern h p = true →
      u ∉ filterUrls urls fd ed) := by
  refine ⟨rfl, ?_, ?_, ?_⟩
  · intro hmem
    exact ((mem_filterUrls urls fd ed u).1 hmem).1
  · intro hne hmem
    obtain ⟨_, hcase⟩ := (mem_filterUrls urls fd ed u).1 hmem
    rcases hcase with hempty | hpred
    · exfalso
      rw [Bool.and_eq_true, List.isEmpty_iff, List.isEmpty_iff] at hempty
      rcases hne with hne | hne
      · exact hne hempty.1
      · exact hne hempty.2
    · obtain ⟨h, hh, hfd, hed⟩ := (domainPred_iff fd ed u).1 hpred
      refine ⟨h, hh, hed, ?_⟩
      intro hfdne
      rcases hfd with rfl | hex
      · exact absurd rfl hfdne
      · exact hex
  · intro h p hh hp hmatch hmem
    obtain ⟨_, hcase⟩ := (mem_filterUrls urls fd ed u).1 hmem
    rcases hcase with hempty | hpred
    · rw [Bool.and_eq_true, List.isEmpty_iff, List.isEmpty_iff] at hempty
      rw [hempty.2] at hp
      simp at hp
    · obtain ⟨h2, hh2, _, hed⟩ := (domainPred_iff fd ed u).1 hpred
      rw [hh] at hh2
      injection hh2 with hh3
      subst hh3
      rw [hed p hp] at hmatch
      simp at hmatch

theorem splitNl_cons (c : Char) (rest : List Char) :
    splitNl (c :: rest) =
      if c = '\n' then [] :: splitNl rest
      else
        match splitNl rest with
        | [] => [[c]]
        | h :: t => (c :: h) :: t := rfl

theorem splitNl_ne_nil (l : List Char) : splitNl l ≠ [] := by
  induction l with
  | nil => simp [splitNl]
  | cons c rest ih =>
    rw [splitNl_cons]
    split_ifs with hc
    · simp
    · cases hs : splitNl rest with
      | nil => simp
      | cons h t => simp

theorem splitNl_append_nl (a b : List Char) :
    splitNl (a ++ '\n' :: b) = splitNl a ++ splitNl b := by
  induction a with
  | nil => simp [splitNl]
  | cons c rest ih =>
    rw [List.cons_append, splitNl_cons, splitNl_cons]
    by_cases hc : c = '\n'
    · rw [if_pos hc, if_pos hc, ih]
      rfl
    · rw [if_neg hc, if_neg hc, ih]
      cases hs : splitNl rest with
      | nil => exact absurd hs (splitNl_ne_nil rest)
      | cons h t => simp

theorem splitNl_no_nl (l : List Char) (h : '\n' ∉ l) : splitNl l = [l] := by
  induction l with
  | nil => rfl
  | cons c rest ih =>
    have hc : ¬(c = '\n') := fun hcc => h (by simp [hcc])
    have h2 : '\n' ∉ rest := fun hr => h (List.mem_cons_of_mem _ hr)
    rw [splitNl_cons, if_neg hc, ih h2]

theorem splitNl_joinNl (us : List (List Char)) (hne : us ≠ [])
    (h : ∀ u ∈ us, '\n' ∉ u) :
    splitNl (joinNlList us ++ ['\n']) = us ++ [[]] := by
  induction us with
  | nil => exact absurd rfl hne
  | cons u rest ih =>
    cases rest with
    | nil =>
      show splitNl (u ++ '\n' :: []) = [u] ++ [[]]
      rw [splitNl_append_nl, splitNl_no_nl u (h u (by simp))]
      rfl
    | cons v rest2 =>
      show splitNl ((u ++ '\n' :: joinNlList (v :: rest2)) ++ ['\n']) = (u :: v :: rest2) ++ [[]]
      rw [List.append_assoc, List.cons_append, splitNl_append_nl,
        splitNl_no_nl u (h u (by simp)),
        ih (by simp) (fun w hw => h w (by simp [hw]))]
      rfl

theorem lineSetList_nl_append (p0 rest : List Char) :
    lineSetList ((p0 ++ ['\n']) ++ rest) = lineSetList (p0 ++ ['\n']) ++ lineSetList rest := by
  unfold lineSetList
  have hshape : (p0 ++ ['\n']) ++ rest = p0 ++ '\n' :: rest := by simp
  rw [hshape, splitNl_append_nl]
  have hshape2 : (p0 ++ ['\n'] : List Char) = p0 ++ '\n' :: [] := rfl
  rw [hshape2, splitNl_append_nl]
  rw [List.filter_append, List.filter_append]
  simp [splitNl, blankLine]

theorem lineSetList_joinNl (us : List (List Char)) (hne : us ≠ [])
    (h : ∀ u ∈ us, '\n' ∉ u ∧ blankLine u = false) :
    lineSetList (joinNlList us ++ ['\n']) = us := by
  unfold lineSetList
  rw [splitNl_joinNl us hne (fun u hu => (h u hu).1), List.filter_append]
  have h1 : us.filter (fun l => !blankLine l) = us := by
    rw [List.filter_eq_self]
    intro u hu
    rw [(h u hu).2]
    rfl
  rw [h1]
  simp [blankLine]

theorem lineSetList_nil : lineSetList [] = [] := rfl

theorem resumeMergeList_overwrite (prior : List Char) (fresh : List (List Char))
    (hE : (lineSetList prior).isEmpty = true) :
    resumeMergeList prior fresh true = joinNlList fresh ++ ['\n'] := by
  simp only [resumeMergeList]
  rw [hE]
  rfl

theorem resumeMergeList_resume (prior : List Char) (fresh : List (List Char))
    (hE : (lineSetList prior).isEmpty = false) :
    resumeMergeList prior fresh true =
      (if (fresh.filter (fun u => !(decide (u ∈ lineSetList prior)))).isEmpty = true then prior
       else prior ++ joinNlList (fresh.filter (fun u => !(decide (u ∈ lineSetList prior)))) ++ ['\n']) := by
  simp only [resumeMergeList]
  rw [hE]
  by_cases hN : (fresh.filter (fun u => !(decide (u ∈ lineSetList prior)))).isEmpty = true
  · rw [hN]
    rfl
  · have hN2 : (fresh.filter (fun u => !(decide (u ∈ lineSetList prior)))).isEmpty = false := by
      cases hy : (fresh.filter (fun u => !(decide (u ∈ lineSetList prior)))).isEmpty
      · rfl
      · exact absurd hy hN
    rw [hN2]
    simp [List.append_assoc]

theorem resumeMergeList_idem (prior : List Char) (fresh : List (List Char))
    (h1 : prior = [] ∨ ∃ p0, prior = p0 ++ ['\n'])
    (h2 : ∀ u ∈ fresh, '\n' ∉ u ∧ blankLine u = false) :
    resumeMergeList (resumeMergeList prior fresh true) fresh true =
      resumeMergeList prior fresh true := by
  by_cases hE : (lineSetList prior).isEmpty = true
  · rw [resumeMergeList_overwrite prior fresh hE]
    cases hfr : fresh with
    | nil =>
      have hE2 : (lineSetList (joinNlList ([] : List (List Char)) ++ ['\n'])).isEmpty = true := by rfl
      rw [resumeMergeList_overwrite _ _ hE2]
    | cons u us =>
      have hlines : lineSetList (joinNlList fresh ++ ['\n']) = fresh := by
        apply lineSetList_joinNl fresh (by rw [hfr]; simp) h2
      have hE2 : (lineSetList (joinNlList fresh ++ ['\n'])).isEmpty = false := by
        rw [hlines, hfr]
        rfl
      rw [← hfr, resumeMergeList_resume _ _ hE2, hlines]
      have hfilter : fresh.filter (fun u => !(decide (u ∈ fresh))) = [] := by
        rw [List.filter_eq_nil_iff]
        intro a ha
        simp [ha]
      rw [hfilter]
      rfl
  · have hE2 : (lineSetList prior).isEmpty = false := by
      cases hy : (lineSetList prior).isEmpty
      · rfl
      · exact absurd hy hE
    have hprior : ∃ p0, prior = p0 ++ ['\n'] := by
      rcases h1 with rfl | h
      · rw [lineSetList_nil] at hE2
        simp at hE2
      · exact h
    obtain ⟨p0, hp0⟩ := hprior
    rw [resumeMergeList_resume prior fresh hE2]
    by_cases hN : (fresh.filter (fun u => !(decide (u ∈ lineSetList prior)))).isEmpty = true
    · rw [if_pos hN, resumeMergeList_resume prior fresh hE2, if_pos hN]
    · rw [if_neg hN]
      have hN2 : fresh.filter (fun u => !(decide (u ∈ lineSetList prior))) ≠ [] := by
        intro hnil
        rw [hnil] at hN
        exact hN rfl
      have hNprops : ∀ u ∈ fresh.filter (fun u => !(decide (u ∈ lineSetList prior))),
          '\n' ∉ u ∧ blankLine u = false := by
        intro u hu
        exact h2 u (List.mem_filter.1 hu).1
      have hlines2 : lineSetList
          ((prior ++ joinNlList (fresh.filter (fun u => !(decide (u ∈ lineSetList prior))))) ++ ['\n']) =
          lineSetList prior ++ fresh.filter (fun u => !(decide (u ∈ lineSetList prior))) := by
        rw [hp0, List.append_assoc (p0 ++ ['\n']), lineSetList_nl_append, ← hp0,
          lineSetList_joinNl _ hN2 hNprops]
      have hE3 : (lineSetList
          (prior ++ joinNlList (fresh.filter (fun u => !(decide (u ∈ lineSetList prior)))) ++ ['\n'])).isEmpty = false := by
        rw [hlines2]
        cases hy : lineSetList prior with
        | nil =>
          rw [hy] at hE2
          simp at hE2
        | cons a t => rfl
      rw [resumeMergeList_resume _ _ hE3, hlines2]
      have hfilter2 : fresh.filter (fun u => !(decide (u ∈
          lineSetList prior ++ fresh.filter (fun u => !(decide (u ∈ lineSetList prior)))))) = [] := by
        rw [List.filter_eq_nil_iff]
        intro a ha
        by_cases hmem : a ∈ lineSetList prior
        · simp [List.mem_append, hmem]
        · have : a ∈ fresh.filter (fun u => !(decide (u ∈ lineSetList prior))) := by
            rw [List.mem_filter]
            exact ⟨ha, by simp [hmem]⟩
          simp [List.mem_append, this]
      rw [hfilter2]
      rfl

/-- C4 counterexample: with a prior output file whose content does not end
in a newline, the first resume merge glues the appended URL onto the last
prior line, so running the merge a second time with the same fresh set
appends again, refuting idempotence for every prior persisted output. -/
theorem c4_counterexample :
    resumeMerge (resumeMerge "X" ["Y"] true) ["Y"] true ≠ resumeMerge "X" ["Y"] true := by
  decide

/-- C4 (amended): the resume merge is idempotent provided the prior output
is empty or ends with a newline and the fresh URLs are newline-free and
not blank; in non-resume mode the output is overwritten wholesale, with
the final content independent of the prior content. -/
theorem c4_resume_merge_idempotent_amended (prior : String) (fresh : List String)
    (h1 : prior = "" ∨ ∃ p0, prior.data = p0 ++ ['\n'])
    (h2 : ∀ u ∈ fresh, '\n' ∉ u.data ∧ blankLine u.data = false) :
    resumeMerge (resumeMerge prior fresh true) fresh true = resumeMerge prior fresh true ∧
    ∀ prior2, resumeMerge prior fresh false = resumeMerge prior2 fresh false := by
  constructor
  · unfold resumeMerge
    congr 1
    apply resumeMergeList_idem
    · rcases h1 with h | ⟨p0, hp⟩
      · left
        rw [h]
      · right
        exact ⟨p0, hp⟩
    · intro u hu
      rw [List.mem_map] at hu
      obtain ⟨v, hv, rfl⟩ := hu
      exact h2 v hv
  · intro prior2
    rfl

/-- Witness for C4 at a newline-terminated prior file. -/
theorem c4_witness :
    resumeMerge "X\n" ["Y"] true = "X\nY\n" ∧
    resumeMerge (resumeMerge "X\n" ["Y"] true) ["Y"] true = resumeMerge "X\n" ["Y"] true :=
  ⟨by decide,
    (c4_resume_merge_idempotent_amended "X\n" ["Y"] (Or.inr ⟨['X'], rfl⟩) (by decide)).1⟩

/-- Witness for C3 at the scenario of the specification: an allow glob
for example.com subdomains with a deny on the cdn host keeps exactly the
app URL, and the cdn URL is rejected although it matches the allow list. -/
theorem c3_witness :
    filterUrls ["https://app.example.com/a.js", "https://cdn.example.com/b.js",
        "https://other.com/c.js"] ["*.example.com"] ["cdn.example.com"] =
      ["https://app.example.com/a.js"] ∧
    urlHostname "https://cdn.example.com/b.js" = some "cdn.example.com" ∧
    matchDomainPattern "cdn.example.com" "*.example.com" = true ∧
    "https://cdn.example.com/b.js" ∉
      filterUrls ["https://app.example.com/a.js", "https://cdn.example.com/b.js",
        "https://other.com/c.js"] ["*.example.com"] ["cdn.example.com"] :=
  ⟨by decide, by decide, by decide,
    (c3_domain_filter
        ["https://app.example.com/a.js", "https://cdn.example.com/b.js",
          "https://other.com/c.js"] ["*.example.com"] ["cdn.example.com"]
        "https://cdn.example.com/b.js").2.2.2 "cdn.example.com" "cdn.example.com"
      (by decide) (by decide) (by decide)⟩

end GetJs
